import Mathlib

/-! YATPool: a shallow embedding of `src/src/yatpool.c`.

The development models the bounded task queue and the thread pool of
`yatpool.c` and proves properties of the model.

Conventions of the embedding.

* A nullable C pointer to an object is an `Option` of the object: `none` is
  `NULL`.  Opaque `void*` values (task arguments, results) and function
  pointers are addresses, `Ptr := Nat`, with `0` for `NULL`.
* A call that can end the process (`ERR_AND_EXIT`, a failed `assert`) or
  suspend the calling thread in `pthread_cond_wait` has an outcome of type
  `Call`.
* `size_t` is 64 bits wide and `int` is 32 bits wide; arithmetic that the C
  code performs on them is reduced explicitly (`SIZE_MOD`, `wrapInt`).
* `malloc`/`calloc` are taken to succeed (the source never checks them).
* Whether a `pthread_create` or `pthread_join` call succeeds is given by a
  parameter of the function that makes the call (`created`, `joined`).
* A store through an index outside the allocated block does not change the
  modelled block (it lands in memory the model does not track).
-/

namespace Yatpool

/-! ## Basic types -/

/-- An opaque `void*` value or a function pointer; `0` is `NULL`. -/
abbrev Ptr := Nat

/-- The null pointer. -/
def NULL : Ptr := 0

/-- Number of values of `size_t` (64-bit). -/
def SIZE_MOD : Nat := 18446744073709551616

/-- The C constant `sizeof(void *)` on the 64-bit target. -/
def SIZEOF_PTR : Nat := 8

/-- Number of values of `int` (32-bit). -/
def INT_MOD : Int := 4294967296

/-- Largest `int`. -/
def INT_MAX : Int := 2147483647

/-- Reduction of an integer to the 32-bit two's complement `int` range, as
performed by the conversion `size_t -> int` and by `int` arithmetic on the
target. -/
def wrapInt (x : Int) : Int := (x + 2147483648) % INT_MOD - 2147483648

/-- Outcome of a call: it returns a value, it ends the process
(`ERR_AND_EXIT` or a failed `assert`), or it suspends the calling thread in
`pthread_cond_wait` because its loop condition holds in the given state. -/
inductive Call (α : Type) where
  | ret (a : α)
  | exit1
  | blocked
  deriving DecidableEq, Repr

/-- The three condition variables of a pool. -/
inductive Cond where
  | cond_queue
  | cond_slot_available
  | cond_done
  deriving DecidableEq, Repr

/-! ## Task queue (`TaskQueue`, lines 40-134) -/

/-- Source: `struct queue`.  `length` is the capacity, `curr_size` the number
of stored values and `data` the block of `length` slots obtained from
`calloc`; a slot holding `NULL` is `none`. -/
structure TaskQueue (α : Type) where
  length : Nat
  curr_size : Nat
  data : List (Option α)
  deriving DecidableEq, Repr

/-- Source: `EMPTY_QUEUE_VALUE` (`0`, the null pointer). -/
def EMPTY_QUEUE_VALUE {α : Type} : Option α := none

/-- Source: `taskqueue_init`.  `assert(length)` ends the process for a zero
length; otherwise the queue owns `length` zeroed slots. -/
def taskqueue_init {α : Type} (length : Nat) : Call (TaskQueue α) :=
  if length = 0 then Call.exit1
  else Call.ret { length := length, curr_size := 0, data := List.replicate length none }

/-- Source: `taskqueue_put`.  Returns the result and the queue afterwards. -/
def taskqueue_put {α : Type} (q : Option (TaskQueue α)) (value : Option α) :
    Bool × Option (TaskQueue α) :=
  match q with
  | none => (false, none)
  | some q =>
    match value with
    | none => (false, some q)
    | some v =>
      if (q.curr_size + 1) % SIZE_MOD > q.length then (false, some q)
      else (true, some { q with data := q.data.set q.curr_size (some v),
                                curr_size := (q.curr_size + 1) % SIZE_MOD })

/-- Source: `taskqueue_size`. -/
def taskqueue_size {α : Type} (q : Option (TaskQueue α)) : Call Nat :=
  match q with
  | none => Call.exit1
  | some q => Call.ret q.curr_size

/-- Source: `taskqueue_get`. -/
def taskqueue_get {α : Type} (q : Option (TaskQueue α)) : Call (Option α) :=
  match q with
  | none => Call.exit1
  | some q =>
    if q.curr_size = 0 then Call.ret EMPTY_QUEUE_VALUE
    else Call.ret (q.data.getD 0 none)

/-- The loop `for (i = ...; i < bound; i++) data[i] = data[i + 1];` of
`taskqueue_pop`, at index `i` with `todo = bound - i` iterations left. -/
def shift_loop {α : Type} (data : List (Option α)) (i : Nat) : (todo : Nat) → List (Option α)
  | 0 => data
  | todo + 1 => shift_loop (data.set i (data.getD (i + 1) none)) (i + 1) todo

/-- Source: `taskqueue_pop`.  Returns the removed value and the queue
afterwards. -/
def taskqueue_pop {α : Type} (q : Option (TaskQueue α)) : Call (Option α × TaskQueue α) :=
  match q with
  | none => Call.exit1
  | some q =>
    if q.curr_size = 0 then Call.ret (EMPTY_QUEUE_VALUE, q)
    else
      let elem := q.data.getD 0 none
      Call.ret (elem, { q with data := shift_loop q.data 0 (q.curr_size - 1),
                               curr_size := q.curr_size - 1 })

/-- Source: `taskqueue_empty`. -/
def taskqueue_empty {α : Type} (q : Option (TaskQueue α)) : Call Bool :=
  match q with
  | none => Call.exit1
  | some q => Call.ret (q.curr_size == 0)

/-- Source: `taskqueue_full`. -/
def taskqueue_full {α : Type} (q : Option (TaskQueue α)) : Call Bool :=
  match q with
  | none => Call.exit1
  | some q => Call.ret (q.curr_size == q.length)

/-- The pointers passed to `free` by the loop
`for (i = 0; i < curr_size; ++i) free(data[i]);`. -/
def freed_slots {α : Type} (q : TaskQueue α) : List (Option α) :=
  (List.range q.curr_size).map (fun i => q.data.getD i none)

/-- Source: `taskqueue_clear`.  Returns the pointers handed to `free` and the
queue afterwards. -/
def taskqueue_clear {α : Type} (q : Option (TaskQueue α)) :
    Call (List (Option α) × TaskQueue α) :=
  match q with
  | none => Call.exit1
  | some q => Call.ret (freed_slots q, { q with curr_size := 0 })

/-- Source: `taskqueue_destroy`.  Returns the pointers handed to `free` for
the stored values; the block and the queue itself are released as well. -/
def taskqueue_destroy {α : Type} (q : Option (TaskQueue α)) : Call (List (Option α)) :=
  match q with
  | none => Call.exit1
  | some q => Call.ret (freed_slots q)

/-- The pending values of a queue, head first: the first `curr_size` slots. -/
def TaskQueue.items {α : Type} (q : TaskQueue α) : List (Option α) :=
  q.data.take q.curr_size

/-- Well-formed queue: `data` is the allocated block of `length` slots, the
block fits in the address space (`calloc(length, sizeof(void *))` can
succeed) and at most `length` values are stored. -/
def TaskQueue.wf {α : Type} (q : TaskQueue α) : Prop :=
  q.data.length = q.length ∧ q.curr_size ≤ q.length ∧ q.length * SIZEOF_PTR < SIZE_MOD

/-! ## Tasks and the pool (`Task`, `YATPool`, lines 140-387) -/

/-- Source: `struct task`.  The three members are addresses; a null
`argdestructor` means the task has no destructor. -/
structure Task where
  taskfunc : Ptr
  arg : Ptr
  argdestructor : Ptr
  deriving DecidableEq, Repr

/-- Observable actions of the pool code, in program order. -/
inductive Event where
  | err
  | lock
  | unlock
  | cond_signal (c : Cond)
  | cond_broadcast (c : Cond)
  | taskfunc (fn : Ptr) (arg : Ptr)
  | store (slot : Int) (val : Ptr)
  | argdestructor (fn : Ptr) (arg : Ptr)
  | free_task (t : Option Task)
  | free_result (p : Ptr)
  | thread_create (i : Nat)
  | thread_join (i : Nat)
  deriving DecidableEq, Repr

/-- Source: `struct yatpool`, without the thread handles and the pthread
objects.  `retvalarr` is the block of result slots obtained from `calloc`;
`completed` and `total_tasks` are C `int`s. -/
structure YATPool where
  pool_size : Nat
  task_queue : TaskQueue Task
  retvalarr : List Ptr
  done : Bool
  completed : Int
  total_tasks : Int
  deriving DecidableEq, Repr

/-- Result of a pool call: the object behind the pool pointer afterwards,
the returned value and the actions performed. -/
structure Ret (β : Type) where
  pool : Option YATPool
  value : β
  events : List Event
  deriving DecidableEq, Repr

/-- Source: `MAX_QUEUE_SIZE`. -/
def MAX_QUEUE_SIZE : Nat := 100

/-- Source: `task_init`.  `task` is the caller's handle (`Task **`): `none`
is a null handle, `some h` a handle whose content is `h`.  Returns the handle
afterwards and the actions performed. -/
def task_init (task : Option (Option Task)) (taskfunc : Ptr) (arg : Ptr)
    (argdestructor : Ptr) : Option (Option Task) × List Event :=
  match task with
  | none => (none, [Event.err])
  | some h =>
    if taskfunc = NULL then (some h, [Event.err])
    else (some (some { taskfunc := taskfunc, arg := arg, argdestructor := argdestructor }), [])

/-- The assignment `retvalarr[slot] = val`. -/
def store_slot (retvalarr : List Ptr) (slot : Int) (val : Ptr) : List Ptr :=
  if 0 ≤ slot then retvalarr.set slot.toNat val else retvalarr

/-- Source: `_yatpool_execute`.  `call fn arg` is the value returned by the
function at address `fn` applied to `arg`. -/
def yatpool_execute (call : Ptr → Ptr → Ptr) (pool : Option YATPool) (task : Option Task) :
    Ret Ptr :=
  match task with
  | none => { pool := pool, value := NULL, events := [Event.err] }
  | some t =>
    match pool with
    | none => { pool := none, value := NULL, events := [Event.err] }
    | some p =>
      let result := call t.taskfunc t.arg
      let p1 := { p with retvalarr := store_slot p.retvalarr p.completed result }
      let p2 := { p1 with completed := wrapInt (p1.completed + 1) }
      let fin := decide (p2.completed ≥ p2.total_tasks)
      let p3 := if fin then { p2 with done := true } else p2
      { pool := some p3
        value := result
        events :=
          [Event.taskfunc t.taskfunc t.arg, Event.lock, Event.store p.completed result]
          ++ (if fin then [Event.cond_broadcast Cond.cond_done] else [])
          ++ [Event.unlock]
          ++ (if t.argdestructor ≠ NULL then [Event.argdestructor t.argdestructor t.arg] else [])
          ++ [Event.free_task (some t)] }

/-- Source: one pass of the `while (true)` body of `_yatpool_start_thread`, up
to the call of `_yatpool_execute`.  `blocked`: the thread waits on
`cond_queue`.  `ret (none, _)`: the thread leaves the loop.
`ret (some (p, task), _)`: the pool is `p` after the pop and the thread goes
on to `_yatpool_execute(pool, task)`. -/
def yatpool_start_thread (pool : YATPool) :
    Call (Option (YATPool × Option Task) × List Event) :=
  match taskqueue_empty (some pool.task_queue) with
  | Call.ret empty =>
    if empty && !pool.done then Call.blocked
    else if pool.done then Call.ret (none, [Event.lock, Event.unlock])
    else
      match taskqueue_pop (some pool.task_queue) with
      | Call.ret (task, q) =>
        match taskqueue_empty (some q) with
        | Call.ret now_empty =>
          Call.ret (some ({ pool with task_queue := q }, task),
            [Event.lock]
            ++ (if now_empty then [Event.cond_signal Cond.cond_slot_available] else [])
            ++ [Event.unlock])
        | Call.exit1 => Call.exit1
        | Call.blocked => Call.blocked
      | Call.exit1 => Call.exit1
      | Call.blocked => Call.blocked
  | Call.exit1 => Call.exit1
  | Call.blocked => Call.blocked

/-- The loops `for (i = 0; i < pool_size; ++i)` over the thread handles, at
index `i` with `todo = pool_size - i` iterations left.  `ok i` tells whether
the pthread call on `threads[i]` returns 0; a non-zero result ends the process
(`ERR_AND_EXIT`), otherwise the action `ev i` is recorded. -/
def thread_loop (ok : Nat → Bool) (ev : Nat → Event) (i : Nat) : (todo : Nat) → Call (List Event)
  | 0 => Call.ret []
  | todo + 1 =>
    if ok i then
      match thread_loop ok ev (i + 1) todo with
      | Call.ret evs => Call.ret (ev i :: evs)
      | Call.exit1 => Call.exit1
      | Call.blocked => Call.blocked
    else Call.exit1

/-- Source: `_yatpool_create_threads`.  `created i` tells whether
`pthread_create` for `threads[i]` succeeds. -/
def yatpool_create_threads (created : Nat → Bool) (pool : Option YATPool) : Call (List Event) :=
  match pool with
  | none => Call.ret [Event.err]
  | some p => thread_loop created Event.thread_create 0 p.pool_size

/-- Source: `yatpool_init`.  `pool` is the caller's handle (`YATPool **`) and
`created i` tells whether `pthread_create` for the `i`-th worker succeeds.
Returns the handle afterwards and the actions performed. -/
def yatpool_init (created : Nat → Bool) (pool : Option (Option YATPool)) (num_threads : Nat)
    (num_tasks : Nat) : Call (Option (Option YATPool) × List Event) :=
  if num_threads = 0 then Call.exit1
  else if num_tasks = 0 then Call.exit1
  else
    match pool with
    | none => Call.ret (none, [Event.err])
    | some _ =>
      match taskqueue_init MAX_QUEUE_SIZE with
      | Call.ret q =>
        let p : YATPool :=
          { pool_size := num_threads
            task_queue := q
            retvalarr := List.replicate num_tasks NULL
            done := false
            completed := 0
            total_tasks := wrapInt (num_tasks : Int) }
        match yatpool_create_threads created (some p) with
        | Call.ret evs => Call.ret (some (some p), evs)
        | Call.exit1 => Call.exit1
        | Call.blocked => Call.blocked
      | Call.exit1 => Call.exit1
      | Call.blocked => Call.blocked

/-- Source: `yatpool_put`.  `blocked`: the caller waits on
`cond_slot_available` because the queue is full. -/
def yatpool_put (pool : Option YATPool) (task : Option Task) : Call (Ret Unit) :=
  match task with
  | none => Call.ret { pool := pool, value := (), events := [Event.err] }
  | some t =>
    match pool with
    | none => Call.ret { pool := none, value := (), events := [Event.err] }
    | some p =>
      match taskqueue_full (some p.task_queue) with
      | Call.ret full =>
        if full then Call.blocked
        else
          let q := ((taskqueue_put (some p.task_queue) (some t)).2).getD p.task_queue
          Call.ret { pool := some { p with task_queue := q }
                     value := ()
                     events := [Event.lock, Event.unlock, Event.cond_signal Cond.cond_queue] }
      | Call.exit1 => Call.exit1
      | Call.blocked => Call.blocked

/-- Source: `yatpool_wait`.  `blocked`: the caller waits on `cond_done`
because `done` is not set.  `joined i` tells whether `pthread_join` on the
`i`-th worker succeeds; the joins return once the workers have left their
loops. -/
def yatpool_wait (joined : Nat → Bool) (pool : Option YATPool) :
    Call (Ret (Option (List Ptr))) :=
  match pool with
  | none => Call.ret { pool := none, value := none, events := [Event.err] }
  | some p =>
    if !p.done then Call.blocked
    else
      match thread_loop joined Event.thread_join 0 p.pool_size with
      | Call.ret evs =>
        Call.ret { pool := some p
                   value := some p.retvalarr
                   events := [Event.lock, Event.cond_broadcast Cond.cond_queue, Event.unlock]
                             ++ evs }
      | Call.exit1 => Call.exit1
      | Call.blocked => Call.blocked

/-- Source: `yatpool_join`.  `joined i` tells whether `pthread_join` on the
`i`-th worker succeeds. -/
def yatpool_join (joined : Nat → Bool) (pool : Option YATPool) :
    Call (Ret (Option (List Ptr))) :=
  match pool with
  | none => Call.ret { pool := none, value := none, events := [Event.err] }
  | some p =>
    match thread_loop joined Event.thread_join 0 p.pool_size with
    | Call.ret evs => Call.ret { pool := some p, value := some p.retvalarr, events := evs }
    | Call.exit1 => Call.exit1
    | Call.blocked => Call.blocked

/-- Source: `yatpool_reset`. -/
def yatpool_reset (pool : Option YATPool) (num_tasks : Nat) : Call (Ret Unit) :=
  match pool with
  | none => Call.ret { pool := none, value := (), events := [Event.err] }
  | some p =>
    if num_tasks = 0 then Call.exit1
    else if !p.done then Call.exit1
    else
      match taskqueue_clear (some p.task_queue) with
      | Call.ret (freed, q) =>
        Call.ret { pool := some { p with task_queue := q
                                         done := false
                                         total_tasks := wrapInt (num_tasks : Int)
                                         completed := 0 }
                   value := ()
                   events := freed.map Event.free_task }
      | Call.exit1 => Call.exit1
      | Call.blocked => Call.blocked

/-- Source: `yatpool_pool_size`. -/
def yatpool_pool_size (pool : Option YATPool) : Nat × List Event :=
  match pool with
  | none => (0, [Event.err])
  | some p => (p.pool_size, [])

/-- Source: `yatpool_destroy`.  Afterwards the pool object no longer exists. -/
def yatpool_destroy (pool : Option YATPool) : Call (Ret Unit) :=
  match pool with
  | none => Call.ret { pool := none, value := (), events := [Event.err] }
  | some p =>
    match taskqueue_destroy (some p.task_queue) with
    | Call.ret freed =>
      Call.ret { pool := none
                 value := ()
                 events := freed.map Event.free_task
                   ++ (List.range p.total_tasks.toNat).map
                        (fun i => Event.free_result (p.retvalarr.getD i NULL)) }
    | Call.exit1 => Call.exit1
    | Call.blocked => Call.blocked

/-! ## Client scripts over the queue -/

/-- Calls `taskqueue_put` for each value of the list, in order; returns the
results of the calls and the queue afterwards. -/
def put_all {α : Type} (q : Option (TaskQueue α)) : List α → List Bool × Option (TaskQueue α)
  | [] => ([], q)
  | v :: vs =>
    let r := taskqueue_put q (some v)
    let rest := put_all r.2 vs
    (r.1 :: rest.1, rest.2)

/-- Calls `taskqueue_pop` `n` times; returns the values obtained, in order,
and the queue afterwards. -/
def pop_n {α : Type} (q : TaskQueue α) : Nat → Call (List (Option α) × TaskQueue α)
  | 0 => Call.ret ([], q)
  | n + 1 =>
    match taskqueue_pop (some q) with
    | Call.ret (x, q1) =>
      match pop_n q1 n with
      | Call.ret (xs, q2) => Call.ret (x :: xs, q2)
      | Call.exit1 => Call.exit1
      | Call.blocked => Call.blocked
    | Call.exit1 => Call.exit1
    | Call.blocked => Call.blocked

/-! ## The pool with its worker threads

The threads of a program using the pool interleave at the granularity of the
critical sections of the source.  A producer step is a call of `yatpool_put`
that passes its wait loop.  A worker takes two kinds of steps: a dequeue step
(one pass of `_yatpool_start_thread` up to `pthread_mutex_unlock`) and a
completion step (the call of `_yatpool_execute` on the task it popped: the
work function, which touches no pool state, then the critical section that
records the result, then the destructor).
-/

/-- Where a worker thread stands. -/
inductive Worker where
  | idle
  | running (task : Option Task)
  | exited
  deriving DecidableEq, Repr

/-- A pool together with its worker threads.  `accepted`, `dequeued` and `log`
are history variables, not C state: the tasks pushed by `yatpool_put` since
construction or the last reset, the tasks popped by workers since then, and
all actions performed so far. -/
structure Sys where
  pool : YATPool
  workers : List Worker
  accepted : List Task
  dequeued : List (Option Task)
  log : List Event
  deriving DecidableEq, Repr

/-- One atomic step of some thread. -/
inductive Action where
  | put (t : Task)
  | dequeue (w : Nat)
  | complete (w : Nat)
  | reset (num_tasks : Nat)
  deriving DecidableEq, Repr

/-- True for a `yatpool_reset` step. -/
def Action.is_reset : Action → Bool
  | Action.reset _ => true
  | _ => false

/-- True for a completion step. -/
def Action.is_complete : Action → Bool
  | Action.complete _ => true
  | _ => false

/-- The state after a call `yatpool_init(&pool, num_threads, num_tasks)` on a
valid handle that returns, every worker thread having been created: the new
pool and `num_threads` workers at the top of their loops. -/
def Sys.init (num_threads : Nat) (num_tasks : Nat) : Option Sys :=
  match yatpool_init (fun _ => true) (some none) num_threads num_tasks with
  | Call.ret (some (some p), evs) =>
    some { pool := p
           workers := List.replicate p.pool_size Worker.idle
           accepted := []
           dequeued := []
           log := evs }
  | _ => none

/-- Effect of one step; `none` when the step cannot be taken in this state
(the thread is suspended, the worker is not at that point of its loop, or the
call ends the process). -/
def step (call : Ptr → Ptr → Ptr) (s : Sys) : Action → Option Sys
  | Action.put t =>
    match yatpool_put (some s.pool) (some t) with
    | Call.ret { pool := some p, value := _, events := evs } =>
      some { s with pool := p, accepted := s.accepted ++ [t], log := s.log ++ evs }
    | _ => none
  | Action.dequeue w =>
    match s.workers.get? w with
    | some Worker.idle =>
      match yatpool_start_thread s.pool with
      | Call.ret (none, evs) =>
        some { s with workers := s.workers.set w Worker.exited, log := s.log ++ evs }
      | Call.ret (some (p, task), evs) =>
        some { s with pool := p
                      workers := s.workers.set w (Worker.running task)
                      dequeued := s.dequeued ++ [task]
                      log := s.log ++ evs }
      | _ => none
    | _ => none
  | Action.complete w =>
    match s.workers.get? w with
    | some (Worker.running task) =>
      match yatpool_execute call (some s.pool) task with
      | { pool := some p, value := _, events := evs } =>
        some { s with pool := p
                      workers := s.workers.set w Worker.idle
                      log := s.log ++ evs }
      | _ => none
    | _ => none
  | Action.reset num_tasks =>
    match yatpool_reset (some s.pool) num_tasks with
    | Call.ret { pool := some p, value := _, events := evs } =>
      some { s with pool := p, accepted := [], dequeued := [], log := s.log ++ evs }
    | _ => none

/-- Effect of a sequence of steps. -/
def run (call : Ptr → Ptr → Ptr) (s : Sys) : List Action → Option Sys
  | [] => some s
  | a :: rest =>
    match step call s a with
    | some s1 => run call s1 rest
    | none => none

/-- Number of completion steps in a sequence of steps. -/
def completions (acts : List Action) : Nat :=
  acts.countP Action.is_complete

/-- True for a worker that holds a popped task. -/
def Worker.is_running : Worker → Bool
  | Worker.running _ => true
  | _ => false

/-- Number of workers that hold a popped task. -/
def running_count (ws : List Worker) : Nat :=
  ws.countP Worker.is_running

/-- The slots written by the stores `retvalarr[slot] = val` of a log, in
order. -/
def stores (log : List Event) : List Int :=
  log.filterMap (fun e => match e with
    | Event.store slot _ => some slot
    | _ => none)

/-- The work-function calls of a log, in order, as (function, argument). -/
def work_calls (log : List Event) : List (Ptr × Ptr) :=
  log.filterMap (fun e => match e with
    | Event.taskfunc fn arg => some (fn, arg)
    | _ => none)

/-- The destructor calls of a log, in order, as (function, argument). -/
def destructor_calls (log : List Event) : List (Ptr × Ptr) :=
  log.filterMap (fun e => match e with
    | Event.argdestructor fn arg => some (fn, arg)
    | _ => none)

/-! ## Example values and invariants used in the statements below -/

/-- A queue of capacity 2 holding one value. -/
def queue_example : TaskQueue Nat :=
  { length := 2, curr_size := 1, data := [some 5, none] }

/-- A task without destructor. -/
def task_a : Task := { taskfunc := 1, arg := 10, argdestructor := 0 }

/-- A task with a destructor. -/
def task_b : Task := { taskfunc := 2, arg := 20, argdestructor := 7 }

/-- A sample interpretation of function pointers. -/
def call_example : Ptr → Ptr → Ptr := fun fn arg => fn + arg

/-- Queue and history invariant: the queue is well formed, and the tasks
popped so far followed by the pending ones are the accepted ones. -/
def qinv (s : Sys) : Prop :=
  s.pool.task_queue.wf ∧ s.dequeued ++ s.pool.task_queue.items = s.accepted.map some

/-- Counter invariant: `total_tasks` is an `int`, and as long as the number of
popped tasks is representable as an `int` the counter is non-negative and
counts at most the popped tasks that are no longer held by a worker. -/
def cinv (s : Sys) : Prop :=
  s.pool.total_tasks ≤ INT_MAX ∧
  ((s.dequeued.length : Int) ≤ INT_MAX →
    0 ≤ s.pool.completed ∧
    s.pool.completed + (running_count s.workers : Int) ≤ (s.dequeued.length : Int))

/-- A pool of two workers declared for one task, after two tasks were
submitted, both were popped and both completed. -/
def overrun_state : Option Sys :=
  (Sys.init 2 1).bind (fun s0 => run call_example s0
    [Action.put task_a, Action.put task_b, Action.dequeue 0, Action.dequeue 1,
     Action.complete 0, Action.complete 1])

/-- Completion invariant of a pool of `n` workers declared for `T` tasks, with
`T + n - 1` representable as an `int`. -/
def dinv (n T : Nat) (s : Sys) : Prop :=
  s.pool.total_tasks = (T : Int) ∧ s.workers.length = n ∧ 0 ≤ s.pool.completed ∧
  s.pool.completed + (running_count s.workers : Int) + 1 ≤ (T : Int) + (n : Int) ∧
  (s.pool.done = false → s.pool.completed < (T : Int)) ∧
  (s.pool.done = true → (T : Int) ≤ s.pool.completed) ∧
  ((stores s.log).length : Int) = s.pool.completed

/-- The steps of a run in which one worker serves two tasks. -/
def acts_example : List Action :=
  [Action.put task_a, Action.put task_b, Action.dequeue 0, Action.complete 0,
   Action.dequeue 0, Action.complete 0]

/-- The state after `yatpool_init(&pool, 1, 2)`. -/
def init_example : Sys :=
  (Sys.init 1 2).get (by decide)

/-- The state after the steps `acts_example`. -/
def done_example : Sys :=
  (run call_example init_example acts_example).get (by decide)

/-- The work-function call a task gives rise to, as (function, argument). -/
def task_call (t : Task) : Ptr × Ptr := (t.taskfunc, t.arg)

/-- The work-function calls of a sequence of popped task pointers. -/
def calls_of (d : List (Option Task)) : List (Ptr × Ptr) :=
  d.filterMap (Option.map task_call)

/-- Single-worker invariant: the work functions called so far are those of the
popped tasks, in pop order, except for the task the worker still holds. -/
def sinv (s : Sys) : Prop :=
  (∃ (task : Option Task) (d : List (Option Task)),
    s.workers = [Worker.running task] ∧ s.dequeued = d ++ [task] ∧
    work_calls s.log = calls_of d) ∨
  ((s.workers = [Worker.idle] ∨ s.workers = [Worker.exited]) ∧
    work_calls s.log = calls_of s.dequeued)

/-- A pool of one worker declared for one task, with `task_b` (which has a
destructor) submitted and still pending in the queue. -/
def pending_state : Option Sys :=
  (Sys.init 1 1).bind (fun s0 => run call_example s0 [Action.put task_b])

/-- A pool of one worker declared for one task whose batch is done (`task_a`
completed) while `task_b` (which has a destructor) is still pending in the
queue. -/
def done_pending_state : Option Sys :=
  (Sys.init 1 1).bind (fun s0 => run call_example s0
    [Action.put task_a, Action.put task_b, Action.dequeue 0, Action.complete 0])

/-- The actions of `yatpool_destroy` on the pool of a state, when it returns. -/
def destroy_events (s : Sys) : Option (List Event) :=
  match yatpool_destroy (some s.pool) with
  | Call.ret r => some r.events
  | _ => none

/-- The actions of `yatpool_reset` on the pool of a state, when it returns. -/
def reset_events (s : Sys) (num_tasks : Nat) : Option (List Event) :=
  match yatpool_reset (some s.pool) num_tasks with
  | Call.ret r => some r.events
  | _ => none

/-- A pool of two workers constructed for one task, whose batch completes and
which is then reset for two tasks: `yatpool_init(&pool, 2, 1)`, one task
submitted, popped by worker 0 and completed, `yatpool_reset(pool, 2)`. -/
def reset_state : Option Sys :=
  (Sys.init 2 1).bind (fun s0 => run call_example s0
    [Action.put task_a, Action.dequeue 0, Action.complete 0, Action.reset 2])

/-- The state `reset_state` after two more tasks were submitted, worker 1
popped and completed the first, and popped the second. -/
def second_batch_state : Option Sys :=
  reset_state.bind (fun s => run call_example s
    [Action.put task_b, Action.put task_a, Action.dequeue 1, Action.complete 1,
     Action.dequeue 1])

/-- A call of one of the queue operations on a queue. -/
inductive QueueOp (α : Type) where
  | put (value : Option α)
  | get
  | pop
  | size
  | empty
  | full
  | clear
  deriving DecidableEq, Repr

/-- The queue after a call of a queue operation.  `taskqueue_get`,
`taskqueue_size`, `taskqueue_empty` and `taskqueue_full` contain no
assignment to the queue: their embeddings return a value only, and the queue
after the call is the queue before it. -/
def apply_op {α : Type} (q : TaskQueue α) : QueueOp α → TaskQueue α
  | QueueOp.put value => ((taskqueue_put (some q) value).2).getD q
  | QueueOp.pop =>
    match taskqueue_pop (some q) with
    | Call.ret (_, q1) => q1
    | _ => q
  | QueueOp.clear =>
    match taskqueue_clear (some q) with
    | Call.ret (_, q1) => q1
    | _ => q
  | QueueOp.get => q
  | QueueOp.size => q
  | QueueOp.empty => q
  | QueueOp.full => q

/-- The queue after a sequence of calls of queue operations. -/
def run_ops {α : Type} (q : TaskQueue α) : List (QueueOp α) → TaskQueue α
  | [] => q
  | op :: rest => run_ops (apply_op q op) rest

/-- A sample sequence of queue operations that tries to push three values
into a queue and then clears it. -/
def ops_example : List (QueueOp Nat) :=
  [QueueOp.put (some 1), QueueOp.put (some 2), QueueOp.full, QueueOp.put (some 3),
   QueueOp.pop, QueueOp.get, QueueOp.put none, QueueOp.size, QueueOp.clear, QueueOp.empty]

/-- The queue created by `taskqueue_init` with capacity 2. -/
def fresh_queue_example : TaskQueue Nat :=
  { length := 2, curr_size := 0, data := [none, none] }

/-- Queue shape invariant of a pool: the queue is well formed and has the
capacity `MAX_QUEUE_SIZE`. -/
def winv (s : Sys) : Prop :=
  s.pool.task_queue.wf ∧ s.pool.task_queue.length = MAX_QUEUE_SIZE

/-- The state `done_pending_state` after `yatpool_reset(pool, 1)`. -/
def after_reset_state : Option Sys :=
  done_pending_state.bind (fun s => run call_example s [Action.reset 1])

/-- The state after `yatpool_init(&pool, 1, 2)` and the submission of
`task_b`: the worker is at the top of its loop and one task is pending. -/
def pending_example : Sys :=
  (run call_example init_example [Action.put task_b]).get (by decide)

/-- Termination invariant of a pool declared for `T` tasks, `T` representable
as an `int`: `done` is set exactly from the `T`-th store on, and `completed`
is the number of stores as long as that number is representable. -/
def einv (T : Nat) (s : Sys) : Prop :=
  s.pool.total_tasks = (T : Int) ∧
  (s.pool.done = false → ((stores s.log).length : Int) < (T : Int)) ∧
  (s.pool.done = true → (T : Int) ≤ ((stores s.log).length : Int)) ∧
  (((stores s.log).length : Int) ≤ INT_MAX →
    s.pool.completed = ((stores s.log).length : Int))

/-- Termination invariant in terms of the counter: as long as the number of
popped tasks is representable as an `int`, `done` implies that `completed`
has reached `total_tasks`. -/
def finv (s : Sys) : Prop :=
  (s.dequeued.length : Int) ≤ INT_MAX → s.pool.done = true →
    s.pool.total_tasks ≤ s.pool.completed

/-- A pool of one worker declared for `2^31` tasks, after one task was
submitted, popped and completed. -/
def early_done_state : Option Sys :=
  (Sys.init 1 2147483648).bind (fun s0 => run call_example s0
    [Action.put task_a, Action.dequeue 0, Action.complete 0])

/-- Whether `yatpool_wait` returns on the pool of a state when every join
succeeds. -/
def wait_returns (s : Sys) : Bool :=
  match yatpool_wait (fun _ => true) (some s.pool) with
  | Call.ret _ => true
  | _ => false

/-- The value of `total_tasks` after `yatpool_init` on a valid handle, when the
call returns with a new pool. -/
def init_total_tasks (created : Nat → Bool) (num_threads num_tasks : Nat) : Option Int :=
  match yatpool_init created (some none) num_threads num_tasks with
  | Call.ret (some (some p), _) => some p.total_tasks
  | _ => none

/-- The value of `total_tasks` after `yatpool_reset`, when the call returns. -/
def reset_total_tasks (p : YATPool) (num_tasks : Nat) : Option Int :=
  match yatpool_reset (some p) num_tasks with
  | Call.ret r => r.pool.map (fun p1 => p1.total_tasks)
  | _ => none

/-! ## Properties of the task queue -/

theorem shift_loop_length {α : Type} (todo i : Nat) (data : List (Option α)) :
    (shift_loop data i todo).length = data.length := by
  induction todo generalizing i data with
  | zero => rfl
  | succ n ih =>
    simp only [shift_loop]
    rw [ih]
    simp

theorem shift_loop_getElem? {α : Type} (todo i : Nat) (data : List (Option α))
    (hb : i + todo < data.length) (j : Nat) :
    (shift_loop data i todo)[j]? =
      if i ≤ j ∧ j < i + todo then data[j + 1]? else data[j]? := by
  induction todo generalizing i data with
  | zero =>
    have h2 : ¬ (i ≤ j ∧ j < i) := by omega
    simp [shift_loop, h2]
  | succ n ih =>
    simp only [shift_loop]
    rw [ih (i + 1) _ (by simp only [List.length_set]; omega)]
    have hi1 : i + 1 < data.length := by omega
    by_cases hj : j = i
    · subst hj
      have h3 : ¬ (j + 1 ≤ j ∧ j < j + 1 + n) := by omega
      have h4 : j ≤ j ∧ j < j + (n + 1) := ⟨le_refl _, by omega⟩
      simp [h3, h4, List.getElem?_set, List.getD_eq_getElem?_getD, hi1]
      omega
    · by_cases hc : i + 1 ≤ j ∧ j < i + 1 + n
      · have h4 : i ≤ j ∧ j < i + (n + 1) := ⟨by omega, by omega⟩
        have : ¬ i = j + 1 := by omega
        simp [hc, h4, List.getElem?_set, this]
      · have h4 : ¬ (i ≤ j ∧ j < i + (n + 1)) := by omega
        have : ¬ i = j := by omega
        simp [hc, h4, List.getElem?_set, this]

theorem take_set_succ {β : Type} (l : List β) (n : Nat) (v : β) (h : n < l.length) :
    (l.set n v).take (n + 1) = l.take n ++ [v] := by
  apply List.ext_getElem?
  intro j
  rcases Nat.lt_trichotomy j n with hj | hj | hj
  · have h1 : j < n + 1 := by omega
    have h2 : ¬ n = j := by omega
    have h3 : j < (List.take n l).length := by simp; omega
    rw [List.getElem?_append_left h3]
    simp [List.getElem?_take, h1, List.getElem?_set, h2, hj]
  · subst hj
    have h3 : (List.take j l).length = j := by simp; omega
    simp [List.getElem?_take, List.getElem?_set, h, List.getElem?_append_right, h3]
  · have h1 : ¬ j < n + 1 := by omega
    have h3 : (List.take n l).length = n := by simp; omega
    have h4 : (List.take n l).length ≤ j := by omega
    rw [List.getElem?_append_right h4]
    simp [List.getElem?_take, h1, h3]
    omega

theorem wf_succ_mod {α : Type} (q : TaskQueue α) (hwf : q.wf) :
    (q.curr_size + 1) % SIZE_MOD = q.curr_size + 1 := by
  obtain ⟨_, h2, h3⟩ := hwf
  apply Nat.mod_eq_of_lt
  simp only [SIZEOF_PTR, SIZE_MOD] at *
  omega

/-- A push onto a well-formed queue that is not full. -/
theorem taskqueue_put_ok {α : Type} (q : TaskQueue α) (v : α) (hwf : q.wf)
    (hlt : q.curr_size < q.length) :
    ∃ q1 : TaskQueue α, taskqueue_put (some q) (some v) = (true, some q1) ∧
      q1.items = q.items ++ [some v] ∧ q1.length = q.length ∧
      q1.curr_size = q.curr_size + 1 ∧ q1.wf := by
  have hm := wf_succ_mod q hwf
  obtain ⟨h1, h2, h3⟩ := hwf
  have hnot : ¬ (q.curr_size + 1 > q.length) := by omega
  refine ⟨{ q with data := q.data.set q.curr_size (some v), curr_size := q.curr_size + 1 },
    ?_, ?_, rfl, rfl, ?_⟩
  · simp [taskqueue_put, hm, hnot]
  · simp only [TaskQueue.items]
    exact take_set_succ _ _ _ (by omega)
  · refine ⟨?_, ?_, h3⟩
    · simpa using h1
    · show q.curr_size + 1 ≤ q.length
      omega

/-- A push onto a well-formed queue that is full. -/
theorem taskqueue_put_full {α : Type} (q : TaskQueue α) (v : α) (hwf : q.wf)
    (hge : ¬ q.curr_size < q.length) :
    taskqueue_put (some q) (some v) = (false, some q) := by
  have hm := wf_succ_mod q hwf
  have hgt : q.curr_size + 1 > q.length := by omega
  simp [taskqueue_put, hm, hgt]

/-- A pop from a non-empty queue whose stored values lie inside the block. -/
theorem taskqueue_pop_ok {α : Type} (q : TaskQueue α) (hle : q.curr_size ≤ q.data.length)
    (hpos : q.curr_size ≠ 0) :
    ∃ q1 : TaskQueue α, taskqueue_pop (some q) = Call.ret (q.items.headD none, q1) ∧
      q1.items = q.items.tail ∧ q1.length = q.length ∧
      q1.curr_size = q.curr_size - 1 ∧ q1.data.length = q.data.length := by
  refine ⟨{ q with data := shift_loop q.data 0 (q.curr_size - 1),
                   curr_size := q.curr_size - 1 }, ?_, ?_, rfl, rfl, ?_⟩
  · simp only [taskqueue_pop, hpos, if_false]
    congr 2
    simp only [TaskQueue.items]
    cases hd : q.data with
    | nil => simp
    | cons x xs =>
      obtain ⟨n, hn⟩ := Nat.exists_eq_succ_of_ne_zero hpos
      simp [hn]
  · simp only [TaskQueue.items]
    apply List.ext_getElem?
    intro j
    have hb : 0 + (q.curr_size - 1) < q.data.length := by omega
    by_cases hj : j < q.curr_size - 1
    · have h1 : j + 1 < q.curr_size := by omega
      have h2 : 0 ≤ j ∧ j < 0 + (q.curr_size - 1) := ⟨Nat.zero_le _, by omega⟩
      rw [List.getElem?_take, if_pos hj, shift_loop_getElem? _ _ _ hb, if_pos h2]
      simp [List.getElem?_take, h1]
    · have h1 : ¬ j + 1 < q.curr_size := by omega
      simp [List.getElem?_take, hj, h1]
  · simp [shift_loop_length]

/-- A pop from an empty queue. -/
theorem taskqueue_pop_empty {α : Type} (q : TaskQueue α) (h0 : q.curr_size = 0) :
    taskqueue_pop (some q) = Call.ret (none, q) := by
  simp [taskqueue_pop, h0, EMPTY_QUEUE_VALUE]

theorem items_length {α : Type} (q : TaskQueue α) (hle : q.curr_size ≤ q.data.length) :
    q.items.length = q.curr_size := by
  simp [TaskQueue.items, hle]

/-- Pushing a list of values that fits into the remaining room. -/
theorem put_all_ok {α : Type} (vs : List α) (q : TaskQueue α) (hwf : q.wf)
    (hroom : q.curr_size + vs.length ≤ q.length) :
    ∃ q1 : TaskQueue α, put_all (some q) vs = (List.replicate vs.length true, some q1) ∧
      q1.items = q.items ++ vs.map some ∧ q1.length = q.length ∧
      q1.curr_size = q.curr_size + vs.length ∧ q1.wf := by
  induction vs generalizing q with
  | nil => exact ⟨q, by simp [put_all], by simp, rfl, by simp, hwf⟩
  | cons v vs ih =>
    simp only [List.length_cons] at hroom
    obtain ⟨qa, hput, hitems, hlen, hsize, hwfa⟩ := taskqueue_put_ok q v hwf (by omega)
    obtain ⟨qb, hall, hitemsb, hlenb, hsizeb, hwfb⟩ := ih qa hwfa (by omega)
    refine ⟨qb, ?_, ?_, ?_, ?_, hwfb⟩
    · simp [put_all, hput, hall, List.replicate_succ]
    · simp [hitemsb, hitems]
    · omega
    · simp only [List.length_cons]
      omega

/-- Popping as many times as there are stored values returns them head first
and empties the queue. -/
theorem pop_n_all {α : Type} (n : Nat) (q : TaskQueue α) (hle : q.curr_size ≤ q.data.length)
    (hn : q.curr_size = n) :
    ∃ q1 : TaskQueue α, pop_n q n = Call.ret (q.items, q1) ∧ q1.curr_size = 0 ∧
      q1.length = q.length := by
  induction n generalizing q with
  | zero =>
    refine ⟨q, ?_, hn, rfl⟩
    simp [pop_n, TaskQueue.items, hn]
  | succ n ih =>
    obtain ⟨qa, hpop, hitems, hlen, hsize, hdata⟩ := taskqueue_pop_ok q hle (by omega)
    obtain ⟨qb, hrest, hzero, hlenb⟩ := ih qa (by omega) (by omega)
    refine ⟨qb, ?_, hzero, by omega⟩
    have hl := items_length q hle
    cases hq : q.items with
    | nil => rw [hq] at hl; simp at hl; omega
    | cons x xs =>
      rw [hq] at hpop hitems
      simp only [List.tail_cons] at hitems
      simp [pop_n, hpop, hrest, hitems]

/-- C5: for every well-formed queue and every (non-null) task handed to
`taskqueue_put`, the call returns true if and only if the current length is
less than the capacity; when it returns true the new item sequence is the old
one with the task appended at the tail, and when it returns false the queue
is unchanged. -/
theorem taskqueue_put_contract {α : Type} (q : TaskQueue α) (v : α) (hwf : q.wf) :
    ((taskqueue_put (some q) (some v)).1 = true ↔ q.curr_size < q.length) ∧
    ((taskqueue_put (some q) (some v)).1 = true →
      ∃ q1 : TaskQueue α, (taskqueue_put (some q) (some v)).2 = some q1 ∧
        q1.items = q.items ++ [some v] ∧ q1.length = q.length) ∧
    ((taskqueue_put (some q) (some v)).1 = false →
      (taskqueue_put (some q) (some v)).2 = some q) := by
  by_cases hlt : q.curr_size < q.length
  · obtain ⟨q1, hput, hitems, hlen, _, _⟩ := taskqueue_put_ok q v hwf hlt
    rw [hput]
    exact ⟨by simp [hlt], fun _ => ⟨q1, rfl, hitems, hlen⟩, by simp⟩
  · rw [taskqueue_put_full q v hwf hlt]
    exact ⟨by simp [hlt], by simp, fun _ => rfl⟩

theorem taskqueue_put_contract_witness :
    queue_example.wf ∧
    ((taskqueue_put (some queue_example) (some 7)).1 = true ↔
      queue_example.curr_size < queue_example.length) ∧
    ((taskqueue_put (some queue_example) (some 7)).1 = true →
      ∃ q1 : TaskQueue Nat, (taskqueue_put (some queue_example) (some 7)).2 = some q1 ∧
        q1.items = queue_example.items ++ [some 7] ∧ q1.length = queue_example.length) ∧
    ((taskqueue_put (some queue_example) (some 7)).1 = false →
      (taskqueue_put (some queue_example) (some 7)).2 = some queue_example) :=
  ⟨⟨rfl, by decide, by decide⟩,
   taskqueue_put_contract queue_example 7 ⟨rfl, by decide, by decide⟩⟩

/-- C6: for every non-empty queue with items `x` followed by `rest`,
`taskqueue_pop` returns `x` and leaves the queue holding exactly `rest` in the
same order (length reduced by one, capacity unchanged); for every empty queue
it returns the empty value (null) and leaves the queue unchanged. -/
theorem taskqueue_pop_contract {α : Type} (q : TaskQueue α)
    (hle : q.curr_size ≤ q.data.length) :
    (∀ (x : Option α) (rest : List (Option α)), q.items = x :: rest →
      ∃ q1 : TaskQueue α, taskqueue_pop (some q) = Call.ret (x, q1) ∧
        q1.items = rest ∧ q1.curr_size = q.curr_size - 1 ∧ q1.length = q.length) ∧
    (q.curr_size = 0 → taskqueue_pop (some q) = Call.ret (EMPTY_QUEUE_VALUE, q)) := by
  constructor
  · intro x rest hitems
    have hl := items_length q hle
    rw [hitems] at hl
    simp only [List.length_cons] at hl
    obtain ⟨q1, hpop, hit, hlen, hsize, _⟩ := taskqueue_pop_ok q hle (by omega)
    rw [hitems] at hpop hit
    exact ⟨q1, by simpa using hpop, by simpa using hit, hsize, hlen⟩
  · intro h0
    exact taskqueue_pop_empty q h0

theorem taskqueue_pop_contract_witness :
    queue_example.curr_size ≤ queue_example.data.length ∧
    (∀ (x : Option Nat) (rest : List (Option Nat)), queue_example.items = x :: rest →
      ∃ q1 : TaskQueue Nat, taskqueue_pop (some queue_example) = Call.ret (x, q1) ∧
        q1.items = rest ∧ q1.curr_size = queue_example.curr_size - 1 ∧
        q1.length = queue_example.length) ∧
    (queue_example.curr_size = 0 →
      taskqueue_pop (some queue_example) = Call.ret (EMPTY_QUEUE_VALUE, queue_example)) :=
  ⟨by decide, taskqueue_pop_contract queue_example (by decide)⟩

/-- C7: the queue is FIFO.  For every capacity `c >= 1` (whose block of `c`
pointers fits in the address space) and every list of `n <= c` non-null
tasks, pushing them in order with `taskqueue_put` onto a freshly initialised
queue of capacity `c` (every push returns true) and then calling
`taskqueue_pop` `n` times returns the same tasks in the same order and leaves
the queue empty: `taskqueue_empty` is true and `taskqueue_size` is 0. -/
theorem taskqueue_fifo {α : Type} (c : Nat) (ts : List α) (hc : 1 ≤ c)
    (hfit : c * SIZEOF_PTR < SIZE_MOD) (hn : ts.length ≤ c) :
    ∃ q0 q1 q2 : TaskQueue α,
      taskqueue_init c = Call.ret q0 ∧
      put_all (some q0) ts = (List.replicate ts.length true, some q1) ∧
      pop_n q1 ts.length = Call.ret (ts.map some, q2) ∧
      taskqueue_empty (some q2) = Call.ret true ∧
      taskqueue_size (some q2) = Call.ret 0 := by
  have hc0 : c ≠ 0 := by omega
  let q0 : TaskQueue α := { length := c, curr_size := 0, data := List.replicate c none }
  have hwf0 : q0.wf := ⟨by simp [q0], Nat.zero_le _, hfit⟩
  obtain ⟨q1, hall, hitems, hlen, hsize, hwf1⟩ :=
    put_all_ok ts q0 hwf0 (by simpa [q0] using hn)
  have hle1 : q1.curr_size ≤ q1.data.length := by
    obtain ⟨h1, h2, _⟩ := hwf1
    omega
  obtain ⟨q2, hpop, hzero, _⟩ := pop_n_all ts.length q1 hle1 (by simpa [q0] using hsize)
  refine ⟨q0, q1, q2, by simp [taskqueue_init, hc0, q0], hall, ?_, ?_, ?_⟩
  · rw [hpop, hitems]
    simp [TaskQueue.items, q0]
  · simp [taskqueue_empty, hzero]
  · simp [taskqueue_size, hzero]

theorem taskqueue_fifo_witness :
    1 ≤ 3 ∧ 3 * SIZEOF_PTR < SIZE_MOD ∧ [10, 20, 30].length ≤ 3 ∧
    ∃ q0 q1 q2 : TaskQueue Nat,
      taskqueue_init 3 = Call.ret q0 ∧
      put_all (some q0) [10, 20, 30] = (List.replicate [10, 20, 30].length true, some q1) ∧
      pop_n q1 [10, 20, 30].length = Call.ret ([10, 20, 30].map some, q2) ∧
      taskqueue_empty (some q2) = Call.ret true ∧
      taskqueue_size (some q2) = Call.ret 0 :=
  ⟨by decide, by decide, by decide,
   taskqueue_fifo 3 [10, 20, 30] (by decide) (by decide) (by decide)⟩

/-! ## Properties of `_yatpool_execute` -/

/-- The pool after the critical section of `_yatpool_execute`. -/
theorem yatpool_execute_some (call : Ptr → Ptr → Ptr) (p : YATPool) (t : Task) :
    ∃ p1 : YATPool, (yatpool_execute call (some p) (some t)).pool = some p1 ∧
      p1.retvalarr = store_slot p.retvalarr p.completed (call t.taskfunc t.arg) ∧
      p1.completed = wrapInt (p.completed + 1) ∧
      p1.total_tasks = p.total_tasks ∧
      p1.task_queue = p.task_queue ∧
      p1.pool_size = p.pool_size ∧
      p1.done = (p.done || decide (wrapInt (p.completed + 1) ≥ p.total_tasks)) ∧
      stores (yatpool_execute call (some p) (some t)).events = [p.completed] ∧
      work_calls (yatpool_execute call (some p) (some t)).events = [(t.taskfunc, t.arg)] := by
  by_cases hfin : wrapInt (p.completed + 1) ≥ p.total_tasks <;>
  by_cases hd : t.argdestructor = NULL <;>
  simp [yatpool_execute, hfin, hd, stores, work_calls]

/-- C8: for every pool and every non-null task, `_yatpool_execute` calls the
task's work function exactly once on the task's argument; if the task has an
argument destructor it calls that destructor exactly once on the same
argument, after the work function has returned and its result has been
stored; if the task has no destructor no destructor is called; the call
returns the work function's result. -/
theorem yatpool_execute_calls (call : Ptr → Ptr → Ptr) (p : YATPool) (t : Task) :
    (yatpool_execute call (some p) (some t)).value = call t.taskfunc t.arg ∧
    work_calls (yatpool_execute call (some p) (some t)).events = [(t.taskfunc, t.arg)] ∧
    (t.argdestructor ≠ NULL →
      destructor_calls (yatpool_execute call (some p) (some t)).events
        = [(t.argdestructor, t.arg)] ∧
      ∃ l1 l2 l3 : List Event,
        (yatpool_execute call (some p) (some t)).events
          = Event.taskfunc t.taskfunc t.arg :: l1
            ++ Event.store p.completed (call t.taskfunc t.arg) :: l2
            ++ Event.argdestructor t.argdestructor t.arg :: l3) ∧
    (t.argdestructor = NULL →
      destructor_calls (yatpool_execute call (some p) (some t)).events = []) := by
  refine ⟨rfl, ?_, ?_, ?_⟩
  · by_cases hfin : wrapInt (p.completed + 1) ≥ p.total_tasks <;>
    by_cases hd : t.argdestructor = NULL <;>
    simp [yatpool_execute, hfin, hd, work_calls]
  · intro hd
    constructor
    · by_cases hfin : wrapInt (p.completed + 1) ≥ p.total_tasks <;>
      simp [yatpool_execute, hfin, hd, destructor_calls]
    · by_cases hfin : wrapInt (p.completed + 1) ≥ p.total_tasks
      · exact ⟨[Event.lock], [Event.cond_broadcast Cond.cond_done, Event.unlock],
          [Event.free_task (some t)], by simp [yatpool_execute, hfin, hd]⟩
      · exact ⟨[Event.lock], [Event.unlock],
          [Event.free_task (some t)], by simp [yatpool_execute, hfin, hd]⟩
  · intro hd
    by_cases hfin : wrapInt (p.completed + 1) ≥ p.total_tasks <;>
    simp [yatpool_execute, hfin, hd, destructor_calls]

theorem yatpool_execute_calls_witness :
    task_b.argdestructor ≠ NULL ∧
    (yatpool_execute call_example (some init_example.pool) (some task_b)).value
      = call_example task_b.taskfunc task_b.arg ∧
    destructor_calls (yatpool_execute call_example (some init_example.pool) (some task_b)).events
      = [(task_b.argdestructor, task_b.arg)] :=
  ⟨by decide,
   (yatpool_execute_calls call_example init_example.pool task_b).1,
   ((yatpool_execute_calls call_example init_example.pool task_b).2.2.1 (by decide)).1⟩

/-! ## Effect of the steps of the system -/

theorem step_put_eq (call : Ptr → Ptr → Ptr) (s s1 : Sys) (t : Task)
    (h : step call s (Action.put t) = some s1) :
    s.pool.task_queue.curr_size ≠ s.pool.task_queue.length ∧
    s1 = { s with
      pool := { s.pool with
        task_queue := ((taskqueue_put (some s.pool.task_queue) (some t)).2).getD
          s.pool.task_queue }
      accepted := s.accepted ++ [t]
      log := s.log ++ [Event.lock, Event.unlock, Event.cond_signal Cond.cond_queue] } := by
  by_cases hfull : s.pool.task_queue.curr_size = s.pool.task_queue.length
  · simp [step, yatpool_put, taskqueue_full, hfull] at h
  · simp only [step, yatpool_put, taskqueue_full, beq_iff_eq, hfull] at h
    simp at h
    exact ⟨hfull, h.symm⟩

theorem start_thread_pop (p : YATPool) (hd : p.done = false)
    (h0 : p.task_queue.curr_size ≠ 0) :
    yatpool_start_thread p =
      Call.ret (some ({ p with task_queue :=
                          { p.task_queue with
                            data := shift_loop p.task_queue.data 0 (p.task_queue.curr_size - 1)
                            curr_size := p.task_queue.curr_size - 1 } },
                      p.task_queue.data.getD 0 none),
        [Event.lock]
        ++ (if p.task_queue.curr_size - 1 = 0
            then [Event.cond_signal Cond.cond_slot_available] else [])
        ++ [Event.unlock]) := by
  by_cases h1 : p.task_queue.curr_size - 1 = 0 <;>
  simp [yatpool_start_thread, taskqueue_empty, taskqueue_pop, hd, h0, h1]

theorem step_dequeue_eq (call : Ptr → Ptr → Ptr) (s s1 : Sys) (w : Nat)
    (h : step call s (Action.dequeue w) = some s1) :
    s.workers.get? w = some Worker.idle ∧
    ((s.pool.done = true ∧
        s1 = { s with workers := s.workers.set w Worker.exited
                      log := s.log ++ [Event.lock, Event.unlock] }) ∨
     (s.pool.done = false ∧ s.pool.task_queue.curr_size ≠ 0 ∧
        ∃ (task : Option Task) (q : TaskQueue Task) (evs : List Event),
          taskqueue_pop (some s.pool.task_queue) = Call.ret (task, q) ∧
          stores evs = [] ∧ work_calls evs = [] ∧
          s1 = { s with pool := { s.pool with task_queue := q }
                        workers := s.workers.set w (Worker.running task)
                        dequeued := s.dequeued ++ [task]
                        log := s.log ++ evs })) := by
  simp only [step] at h
  split at h
  · rename_i hw
    refine ⟨hw, ?_⟩
    cases hdone : s.pool.done
    · by_cases h0 : s.pool.task_queue.curr_size = 0
      · simp [yatpool_start_thread, taskqueue_empty, hdone, h0] at h
      · right
        refine ⟨rfl, h0, ?_⟩
        rw [start_thread_pop s.pool hdone h0] at h
        simp only [Option.some.injEq] at h
        refine ⟨_, _, _, ?_, ?_, ?_, h.symm⟩
        · simp [taskqueue_pop, h0]
        · by_cases h1 : s.pool.task_queue.curr_size - 1 = 0 <;> simp [stores, h1]
        · by_cases h1 : s.pool.task_queue.curr_size - 1 = 0 <;> simp [work_calls, h1]
    · left
      simp [yatpool_start_thread, taskqueue_empty, hdone] at h
      exact ⟨rfl, h.symm⟩
  · simp at h

theorem step_complete_eq (call : Ptr → Ptr → Ptr) (s s1 : Sys) (w : Nat)
    (h : step call s (Action.complete w) = some s1) :
    (s.workers.get? w = some (Worker.running none) ∧
      s1 = { s with workers := s.workers.set w Worker.idle
                    log := s.log ++ [Event.err] }) ∨
    (∃ (t : Task) (p1 : YATPool),
      s.workers.get? w = some (Worker.running (some t)) ∧
      (yatpool_execute call (some s.pool) (some t)).pool = some p1 ∧
      s1 = { s with pool := p1
                    workers := s.workers.set w Worker.idle
                    log := s.log ++ (yatpool_execute call (some s.pool) (some t)).events }) := by
  simp only [step] at h
  split at h
  · rename_i task hw
    cases task with
    | none =>
      left
      simp [yatpool_execute] at h
      exact ⟨hw, h.symm⟩
    | some t =>
      right
      obtain ⟨p1, hp1, _⟩ := yatpool_execute_some call s.pool t
      refine ⟨t, p1, hw, hp1, ?_⟩
      split at h
      · rename_i p2 v evs heq
        simp at h
        rw [heq] at hp1
        simp at hp1
        rw [heq, ← h, hp1]
      · rename_i hno
        exfalso
        exact hno p1 _ _ (by rw [← hp1])
  · simp at h

/-! ## Invariants of runs without a reset -/

theorem wrapInt_id (x : Int) (h0 : -2147483648 ≤ x) (h1 : x ≤ INT_MAX) : wrapInt x = x := by
  unfold wrapInt INT_MOD
  unfold INT_MAX at h1
  omega

theorem wrapInt_le (x : Int) : wrapInt x ≤ INT_MAX := by
  unfold wrapInt INT_MOD INT_MAX
  omega

theorem thread_loop_ok (ok : Nat → Bool) (ev : Nat → Event) (todo i : Nat)
    (h : ∀ j : Nat, i ≤ j → j < i + todo → ok j = true) :
    thread_loop ok ev i todo = Call.ret ((List.range' i todo).map ev) := by
  induction todo generalizing i with
  | zero => rfl
  | succ k ih =>
    have hi : ok i = true := h i (le_refl _) (by omega)
    simp only [thread_loop, hi, if_true]
    rw [ih (i + 1) (fun j h1 h2 => h j (by omega) (by omega))]
    simp [List.range'_succ]

theorem thread_loop_exit (ok : Nat → Bool) (ev : Nat → Event) (todo i : Nat)
    (h : ∃ j : Nat, i ≤ j ∧ j < i + todo ∧ ok j = false) :
    thread_loop ok ev i todo = Call.exit1 := by
  induction todo generalizing i with
  | zero =>
    obtain ⟨j, h1, h2, _⟩ := h
    omega
  | succ k ih =>
    cases hi : ok i with
    | false => simp [thread_loop, hi]
    | true =>
      obtain ⟨j, h1, h2, h3⟩ := h
      have hne : j ≠ i := by
        intro hji
        rw [hji, hi] at h3
        cases h3
      simp only [thread_loop, hi, if_true]
      rw [ih (i + 1) ⟨j, by omega, by omega, h3⟩]

theorem thread_loop_cases (ok : Nat → Bool) (ev : Nat → Event) (todo i : Nat) :
    (thread_loop ok ev i todo = Call.ret ((List.range' i todo).map ev) ∧
      ∀ j : Nat, i ≤ j → j < i + todo → ok j = true) ∨
    (thread_loop ok ev i todo = Call.exit1 ∧
      ∃ j : Nat, i ≤ j ∧ j < i + todo ∧ ok j = false) := by
  by_cases h : ∀ j : Nat, i ≤ j → j < i + todo → ok j = true
  · exact Or.inl ⟨thread_loop_ok ok ev todo i h, h⟩
  · right
    have h1 : ∃ j : Nat, i ≤ j ∧ j < i + todo ∧ ok j = false := by
      by_contra hcon
      apply h
      intro j hj1 hj2
      cases hj : ok j with
      | true => rfl
      | false => exact absurd ⟨j, hj1, hj2, hj⟩ hcon
    exact ⟨thread_loop_exit ok ev todo i h1, h1⟩

theorem init_eq (n T : Nat) (s0 : Sys) (h : Sys.init n T = some s0) :
    n ≠ 0 ∧ T ≠ 0 ∧
    s0 = { pool := { pool_size := n
                     task_queue := { length := MAX_QUEUE_SIZE, curr_size := 0,
                                     data := List.replicate MAX_QUEUE_SIZE none }
                     retvalarr := List.replicate T NULL
                     done := false
                     completed := 0
                     total_tasks := wrapInt (T : Int) }
           workers := List.replicate n Worker.idle
           accepted := []
           dequeued := []
           log := (List.range n).map Event.thread_create } := by
  have hloop : thread_loop (fun _ => true) Event.thread_create 0 n
      = Call.ret ((List.range n).map Event.thread_create) := by
    rw [thread_loop_ok _ _ n 0 (fun _ _ _ => rfl), List.range_eq_range']
  by_cases hn : n = 0
  · simp [Sys.init, yatpool_init, hn] at h
  · by_cases hT : T = 0
    · simp [Sys.init, yatpool_init, hn, hT] at h
    · refine ⟨hn, hT, ?_⟩
      simp only [Sys.init, yatpool_init, hn, hT, taskqueue_init, MAX_QUEUE_SIZE,
        yatpool_create_threads, if_false, hloop] at h
      simp at h
      simp [← h, MAX_QUEUE_SIZE]

theorem qinv_init (n T : Nat) (s0 : Sys) (h : Sys.init n T = some s0) : qinv s0 := by
  obtain ⟨_, _, rfl⟩ := init_eq n T s0 h
  refine ⟨⟨by simp, by simp, by simp [MAX_QUEUE_SIZE, SIZEOF_PTR, SIZE_MOD]⟩, ?_⟩
  simp [TaskQueue.items]

theorem qinv_step (call : Ptr → Ptr → Ptr) (s s1 : Sys) (a : Action)
    (hr : a.is_reset = false) (hs : step call s a = some s1) (hq : qinv s) : qinv s1 := by
  obtain ⟨hwf, hhist⟩ := hq
  cases a with
  | put t =>
    obtain ⟨hne, rfl⟩ := step_put_eq call s s1 t hs
    have hlt : s.pool.task_queue.curr_size < s.pool.task_queue.length := by
      have := hwf.2.1
      omega
    obtain ⟨q1, hput, hitems, _, _, hwf1⟩ := taskqueue_put_ok s.pool.task_queue t hwf hlt
    simp only [hput, Option.getD_some]
    refine ⟨hwf1, ?_⟩
    simp only [hitems, List.map_append, List.map_cons, List.map_nil, ← hhist,
      List.append_assoc]
  | dequeue w =>
    obtain ⟨_, hcase⟩ := step_dequeue_eq call s s1 w hs
    rcases hcase with ⟨_, rfl⟩ | ⟨_, h0, task, q, evs, hpop, _, _, rfl⟩
    · exact ⟨hwf, hhist⟩
    · have hle : s.pool.task_queue.curr_size ≤ s.pool.task_queue.data.length := by
        have h1 := hwf.1
        have h2 := hwf.2.1
        omega
      obtain ⟨q1, hpop1, hitems, hlen, hsize, hdata⟩ := taskqueue_pop_ok s.pool.task_queue hle h0
      rw [hpop] at hpop1
      simp only [Call.ret.injEq, Prod.mk.injEq] at hpop1
      obtain ⟨htask, hq1⟩ := hpop1
      subst hq1
      refine ⟨⟨by rw [hdata, hlen]; exact hwf.1, by rw [hsize, hlen]; have := hwf.2.1; omega,
        by rw [hlen]; exact hwf.2.2⟩, ?_⟩
      have hl := items_length s.pool.task_queue hle
      show (s.dequeued ++ [task]) ++ q.items = s.accepted.map some
      rw [hitems, ← hhist, htask]
      cases hi : s.pool.task_queue.items with
      | nil => rw [hi] at hl; simp at hl; omega
      | cons x xs => simp
  | complete w =>
    rcases step_complete_eq call s s1 w hs with ⟨_, rfl⟩ | ⟨t, p1, _, hp1, rfl⟩
    · exact ⟨hwf, hhist⟩
    · obtain ⟨p2, hp2, _, _, _, hq2, _⟩ := yatpool_execute_some call s.pool t
      rw [hp1] at hp2
      simp only [Option.some.injEq] at hp2
      subst hp2
      show p1.task_queue.wf ∧ s.dequeued ++ p1.task_queue.items = s.accepted.map some
      rw [hq2]
      exact ⟨hwf, hhist⟩
  | reset m => simp [Action.is_reset] at hr

theorem qinv_run (call : Ptr → Ptr → Ptr) (acts : List Action) (s s1 : Sys)
    (hr : ∀ a ∈ acts, a.is_reset = false) (hs : run call s acts = some s1) (hq : qinv s) :
    qinv s1 := by
  induction acts generalizing s with
  | nil =>
    simp [run] at hs
    exact hs ▸ hq
  | cons a rest ih =>
    simp only [run] at hs
    cases hstep : step call s a with
    | none => simp [hstep] at hs
    | some s2 =>
      simp only [hstep] at hs
      exact ih s2 (fun b hb => hr b (List.mem_cons_of_mem _ hb)) hs
        (qinv_step call s s2 a (hr a (List.mem_cons_self _ _)) hstep hq)

theorem running_set (ws : List Worker) (w : Nat) (x y : Worker) (h : ws.get? w = some x) :
    running_count (ws.set w y) + (if x.is_running then 1 else 0)
      = running_count ws + (if y.is_running then 1 else 0) := by
  rw [List.get?_eq_getElem?] at h
  obtain ⟨hlt, hx⟩ := List.getElem?_eq_some.mp h
  have hle := List.boole_getElem_le_countP Worker.is_running ws w hlt
  simp only [running_count]
  rw [List.countP_set Worker.is_running ws w y hlt, hx]
  rw [hx] at hle
  omega

theorem running_le_length (ws : List Worker) : running_count ws ≤ ws.length :=
  List.countP_le_length _

theorem cinv_init (n T : Nat) (s0 : Sys) (h : Sys.init n T = some s0) : cinv s0 := by
  obtain ⟨_, _, rfl⟩ := init_eq n T s0 h
  refine ⟨wrapInt_le _, fun _ => ?_⟩
  simp [running_count, Worker.is_running]

theorem cinv_step (call : Ptr → Ptr → Ptr) (s s1 : Sys) (a : Action)
    (hr : a.is_reset = false) (hs : step call s a = some s1) (hc : cinv s) :
    cinv s1 ∧ ((s.dequeued.length : Int) ≤ INT_MAX → s.pool.completed ≤ s1.pool.completed) := by
  obtain ⟨htot, hcnt⟩ := hc
  cases a with
  | put t =>
    obtain ⟨_, rfl⟩ := step_put_eq call s s1 t hs
    exact ⟨⟨htot, hcnt⟩, fun _ => le_refl _⟩
  | dequeue w =>
    obtain ⟨hw, hcase⟩ := step_dequeue_eq call s s1 w hs
    rcases hcase with ⟨_, rfl⟩ | ⟨_, h0, task, q, evs, hpop, _, _, rfl⟩
    · refine ⟨⟨htot, fun hd => ?_⟩, fun _ => le_refl _⟩
      have hrun := running_set s.workers w Worker.idle Worker.exited hw
      simp only [Worker.is_running] at hrun
      have := hcnt hd
      simp only at this ⊢
      constructor
      · exact this.1
      · have h2 := this.2
        simp at hrun
        omega
    · refine ⟨⟨htot, fun hd => ?_⟩, fun _ => le_refl _⟩
      have hrun := running_set s.workers w Worker.idle (Worker.running task) hw
      simp only [Worker.is_running] at hrun
      simp only [List.length_append, List.length_singleton, Nat.cast_add, Nat.cast_one] at hd ⊢
      have := hcnt (by omega)
      simp at hrun
      constructor
      · exact this.1
      · have h2 := this.2
        show s.pool.completed + (running_count (s.workers.set w (Worker.running task)) : Int)
          ≤ (s.dequeued.length : Int) + 1
        omega
  | complete w =>
    rcases step_complete_eq call s s1 w hs with ⟨hw, rfl⟩ | ⟨t, p1, hw, hp1, rfl⟩
    · refine ⟨⟨htot, fun hd => ?_⟩, fun _ => le_refl _⟩
      have hrun := running_set s.workers w (Worker.running none) Worker.idle hw
      simp [Worker.is_running] at hrun
      have := hcnt hd
      constructor
      · exact this.1
      · have h2 := this.2
        show s.pool.completed + (running_count (s.workers.set w Worker.idle) : Int)
          ≤ (s.dequeued.length : Int)
        omega
    · obtain ⟨p2, hp2, _, hcompl, htot2, _, _, _, _⟩ := yatpool_execute_some call s.pool t
      rw [hp1] at hp2
      simp only [Option.some.injEq] at hp2
      subst hp2
      have hrun := running_set s.workers w (Worker.running (some t)) Worker.idle hw
      simp [Worker.is_running] at hrun
      have hno : (s.dequeued.length : Int) ≤ INT_MAX → p1.completed = s.pool.completed + 1 := by
        intro hd
        have := hcnt hd
        rw [hcompl]
        apply wrapInt_id
        · omega
        · omega
      refine ⟨⟨by show p1.total_tasks ≤ INT_MAX; rw [htot2]; exact htot, fun hd => ?_⟩,
        fun hd => ?_⟩
      · have := hcnt hd
        have h3 := hno hd
        constructor
        · show 0 ≤ p1.completed
          omega
        · show p1.completed + (running_count (s.workers.set w Worker.idle) : Int)
            ≤ (s.dequeued.length : Int)
          omega
      · have h3 := hno hd
        show s.pool.completed ≤ p1.completed
        omega
  | reset m => simp [Action.is_reset] at hr

theorem cinv_run (call : Ptr → Ptr → Ptr) (acts : List Action) (s s1 : Sys)
    (hr : ∀ a ∈ acts, a.is_reset = false) (hs : run call s acts = some s1) (hc : cinv s) :
    cinv s1 := by
  induction acts generalizing s with
  | nil =>
    simp [run] at hs
    exact hs ▸ hc
  | cons a rest ih =>
    simp only [run] at hs
    cases hstep : step call s a with
    | none => simp [hstep] at hs
    | some s2 =>
      simp only [hstep] at hs
      exact ih s2 (fun b hb => hr b (List.mem_cons_of_mem _ hb)) hs
        (cinv_step call s s2 a (hr a (List.mem_cons_self _ _)) hstep hc).1

theorem accepted_step (call : Ptr → Ptr → Ptr) (s s1 : Sys) (a : Action)
    (hr : a.is_reset = false) (hs : step call s a = some s1) :
    s.accepted.length ≤ s1.accepted.length := by
  cases a with
  | put t =>
    obtain ⟨_, rfl⟩ := step_put_eq call s s1 t hs
    simp
  | dequeue w =>
    obtain ⟨_, hcase⟩ := step_dequeue_eq call s s1 w hs
    rcases hcase with ⟨_, rfl⟩ | ⟨_, _, task, q, evs, _, _, _, rfl⟩ <;> exact le_refl _
  | complete w =>
    rcases step_complete_eq call s s1 w hs with ⟨_, rfl⟩ | ⟨t, p1, _, _, rfl⟩ <;> exact le_refl _
  | reset m => simp [Action.is_reset] at hr

theorem dequeued_le_accepted (s : Sys) (hq : qinv s) : s.dequeued.length ≤ s.accepted.length := by
  have h := congrArg List.length hq.2
  simp only [List.length_append, List.length_map] at h
  omega

/-- C1 (as stated, refuted): with two workers and a pool declared for one
task, two submitted tasks are both popped before the first one completes, and
after both completions `completed` is 2 while `total_tasks` is 1. -/
theorem completed_exceeds_total :
    overrun_state.map (fun s => (s.pool.total_tasks, s.pool.completed,
      decide (s.pool.completed ≤ s.pool.total_tasks))) = some (1, 2, false) := by
  decide

/-- C1 (amended): in every pool state reachable from
`yatpool_init(pool, n, T)` by any interleaving of `yatpool_put` submissions,
worker dequeue steps and worker completion steps in which at most
`total_tasks` tasks have been accepted by `yatpool_put`, the completion
counter satisfies `0 <= completed <= total_tasks`, and no such step taken
from that state decreases `completed`. -/
theorem completed_bounded (call : Ptr → Ptr → Ptr) (n T : Nat) (s0 : Sys)
    (acts : List Action) (s : Sys)
    (h0 : Sys.init n T = some s0)
    (hr : ∀ a ∈ acts, a.is_reset = false)
    (hs : run call s0 acts = some s)
    (hacc : (s.accepted.length : Int) ≤ s.pool.total_tasks) :
    0 ≤ s.pool.completed ∧ s.pool.completed ≤ s.pool.total_tasks ∧
    ∀ (a : Action) (s1 : Sys), a.is_reset = false → step call s a = some s1 →
      s.pool.completed ≤ s1.pool.completed := by
  have hq := qinv_run call acts s0 s hr hs (qinv_init n T s0 h0)
  have hc := cinv_run call acts s0 s hr hs (cinv_init n T s0 h0)
  have hda := dequeued_le_accepted s hq
  have hd : (s.dequeued.length : Int) ≤ INT_MAX := by
    have := hc.1
    omega
  obtain ⟨hnn, hsum⟩ := hc.2 hd
  refine ⟨hnn, by omega, fun a s1 ha hstep => ?_⟩
  exact (cinv_step call s s1 a ha hstep hc).2 hd

theorem completed_bounded_witness :
    (Sys.init 1 2 = some init_example ∧
      (∀ a ∈ acts_example, a.is_reset = false) ∧
      run call_example init_example acts_example = some done_example ∧
      (done_example.accepted.length : Int) ≤ done_example.pool.total_tasks) ∧
    (0 ≤ done_example.pool.completed ∧
      done_example.pool.completed ≤ done_example.pool.total_tasks ∧
      ∀ (a : Action) (s1 : Sys), a.is_reset = false →
        step call_example done_example a = some s1 →
        done_example.pool.completed ≤ s1.pool.completed) :=
  ⟨⟨by decide, by decide, by decide, by decide⟩,
   completed_bounded call_example 1 2 init_example acts_example done_example
     (by decide) (by decide) (by decide) (by decide)⟩

theorem stores_append (l1 l2 : List Event) : stores (l1 ++ l2) = stores l1 ++ stores l2 := by
  simp [stores]

theorem stores_thread_create (l : List Nat) : stores (l.map Event.thread_create) = [] := by
  induction l with
  | nil => rfl
  | cons x xs ih =>
    simp only [stores, List.map_cons, List.filterMap_cons] at ih ⊢
    exact ih

theorem running_replicate_idle (n : Nat) :
    running_count (List.replicate n Worker.idle) = 0 := by
  induction n with
  | zero => rfl
  | succ k ih =>
    simp only [running_count, List.replicate_succ, List.countP_cons] at ih ⊢
    simp [ih, Worker.is_running]

theorem dinv_init (n T : Nat) (s0 : Sys) (hfit : (T : Int) + (n : Int) ≤ 2147483648)
    (h : Sys.init n T = some s0) : dinv n T s0 := by
  obtain ⟨hn, hT, rfl⟩ := init_eq n T s0 h
  have hw : wrapInt (T : Int) = (T : Int) := by
    apply wrapInt_id
    · omega
    · unfold INT_MAX
      omega
  refine ⟨hw, by simp, le_refl _, ?_, fun _ => ?_, fun hd => ?_, ?_⟩
  · show (0 : Int) + (running_count (List.replicate n Worker.idle) : Int) + 1
      ≤ (T : Int) + (n : Int)
    rw [running_replicate_idle]
    simp only [Nat.cast_zero]
    omega
  · show (0 : Int) < (T : Int)
    omega
  · simp at hd
  · simp [stores_thread_create]

theorem dinv_step (call : Ptr → Ptr → Ptr) (n T : Nat) (s s1 : Sys) (a : Action)
    (hfit : (T : Int) + (n : Int) ≤ 2147483648)
    (hr : a.is_reset = false) (hs : step call s a = some s1) (hd : dinv n T s) :
    dinv n T s1 := by
  obtain ⟨htot, hlen, hnn, hsum, hnd, hdn, hst⟩ := hd
  cases a with
  | put t =>
    obtain ⟨_, rfl⟩ := step_put_eq call s s1 t hs
    refine ⟨htot, hlen, hnn, hsum, hnd, hdn, ?_⟩
    simp only [stores_append]
    simpa [stores] using hst
  | dequeue w =>
    obtain ⟨hw, hcase⟩ := step_dequeue_eq call s s1 w hs
    rcases hcase with ⟨_, rfl⟩ | ⟨hdone, h0, task, q, evs, hpop, hstores, _, rfl⟩
    · have hrun := running_set s.workers w Worker.idle Worker.exited hw
      simp [Worker.is_running] at hrun
      refine ⟨htot, by simpa using hlen, hnn, ?_, hnd, hdn, ?_⟩
      · show s.pool.completed + (running_count (s.workers.set w Worker.exited) : Int) + 1
          ≤ (T : Int) + (n : Int)
        omega
      · simp only [stores_append]
        simpa [stores] using hst
    · have hrun := running_set s.workers w Worker.idle (Worker.running task) hw
      simp [Worker.is_running] at hrun
      have hle := running_le_length (s.workers.set w (Worker.running task))
      simp only [List.length_set] at hle
      have hlt := hnd hdone
      refine ⟨htot, by simpa using hlen, hnn, ?_, hnd, hdn, ?_⟩
      · show s.pool.completed + (running_count (s.workers.set w (Worker.running task)) : Int) + 1
          ≤ (T : Int) + (n : Int)
        omega
      · simp only [stores_append, hstores, List.append_nil]
        exact hst
  | complete w =>
    rcases step_complete_eq call s s1 w hs with ⟨hw, rfl⟩ | ⟨t, p1, hw, hp1, rfl⟩
    · have hrun := running_set s.workers w (Worker.running none) Worker.idle hw
      simp [Worker.is_running] at hrun
      refine ⟨htot, by simpa using hlen, hnn, ?_, hnd, hdn, ?_⟩
      · show s.pool.completed + (running_count (s.workers.set w Worker.idle) : Int) + 1
          ≤ (T : Int) + (n : Int)
        omega
      · simp only [stores_append]
        simpa [stores] using hst
    · obtain ⟨p2, hp2, _, hcompl, htot2, _, _, hdone2, hstores2, _⟩ :=
        yatpool_execute_some call s.pool t
      rw [hp1] at hp2
      simp only [Option.some.injEq] at hp2
      subst hp2
      have hrun := running_set s.workers w (Worker.running (some t)) Worker.idle hw
      simp [Worker.is_running] at hrun
      have hc1 : p1.completed = s.pool.completed + 1 := by
        rw [hcompl]
        apply wrapInt_id
        · omega
        · unfold INT_MAX
          omega
      rw [← hcompl, htot, hc1] at hdone2
      refine ⟨by show p1.total_tasks = (T : Int); rw [htot2]; exact htot,
        by simpa using hlen, by show 0 ≤ p1.completed; omega, ?_, ?_, ?_, ?_⟩
      · show p1.completed + (running_count (s.workers.set w Worker.idle) : Int) + 1
          ≤ (T : Int) + (n : Int)
        omega
      · intro hf
        show p1.completed < (T : Int)
        rw [hf] at hdone2
        have h1 := Bool.or_eq_false_iff.mp hdone2.symm
        have h2 : ¬ (s.pool.completed + 1 ≥ (T : Int)) := by simpa using h1.2
        omega
      · intro ht
        show (T : Int) ≤ p1.completed
        rw [ht] at hdone2
        rcases Bool.or_eq_true_iff.mp hdone2.symm with h1 | h1
        · have := hdn h1
          omega
        · have h2 : s.pool.completed + 1 ≥ (T : Int) := by simpa using h1
          omega
      · show ((stores (s.log ++ _)).length : Int) = p1.completed
        rw [stores_append, hstores2]
        simp only [List.length_append, List.length_singleton, Nat.cast_add, Nat.cast_one]
        omega
  | reset m => simp [Action.is_reset] at hr

theorem dinv_run (call : Ptr → Ptr → Ptr) (n T : Nat) (acts : List Action) (s s1 : Sys)
    (hfit : (T : Int) + (n : Int) ≤ 2147483648)
    (hr : ∀ a ∈ acts, a.is_reset = false) (hs : run call s acts = some s1) (hd : dinv n T s) :
    dinv n T s1 := by
  induction acts generalizing s with
  | nil =>
    simp [run] at hs
    exact hs ▸ hd
  | cons a rest ih =>
    simp only [run] at hs
    cases hstep : step call s a with
    | none => simp [hstep] at hs
    | some s2 =>
      simp only [hstep] at hs
      exact ih s2 (fun b hb => hr b (List.mem_cons_of_mem _ hb)) hs
        (dinv_step call n T s s2 a hfit (hr a (List.mem_cons_self _ _)) hstep hd)

theorem einv_init (n T : Nat) (s0 : Sys) (hT : (T : Int) ≤ INT_MAX)
    (h : Sys.init n T = some s0) : einv T s0 := by
  obtain ⟨_, hT0, rfl⟩ := init_eq n T s0 h
  have hw : wrapInt (T : Int) = (T : Int) := wrapInt_id _ (by omega) hT
  refine ⟨hw, fun _ => ?_, fun hd => ?_, fun _ => ?_⟩
  · simp only [stores_thread_create, List.length_nil, Nat.cast_zero]
    omega
  · simp at hd
  · simp [stores_thread_create]

theorem einv_step (call : Ptr → Ptr → Ptr) (T : Nat) (s s1 : Sys) (a : Action)
    (hT : (T : Int) ≤ INT_MAX)
    (hr : a.is_reset = false) (hs : step call s a = some s1) (he : einv T s) :
    einv T s1 := by
  obtain ⟨htot, hnd, hdn, hcnt⟩ := he
  have hsame : s1.pool.total_tasks = s.pool.total_tasks → s1.pool.done = s.pool.done →
      s1.pool.completed = s.pool.completed → stores s1.log = stores s.log → einv T s1 := by
    intro h1 h2 h3 h4
    refine ⟨by rw [h1]; exact htot, ?_, ?_, ?_⟩
    · rw [h2, h4]
      exact hnd
    · rw [h2, h4]
      exact hdn
    · rw [h3, h4]
      exact hcnt
  cases a with
  | put t =>
    obtain ⟨_, rfl⟩ := step_put_eq call s s1 t hs
    exact hsame rfl rfl rfl (by simp [stores])
  | dequeue w =>
    obtain ⟨_, hcase⟩ := step_dequeue_eq call s s1 w hs
    rcases hcase with ⟨_, rfl⟩ | ⟨_, _, task, q, evs, _, hst, _, rfl⟩
    · exact hsame rfl rfl rfl (by simp [stores])
    · exact hsame rfl rfl rfl (by simp only [stores_append, hst, List.append_nil])
  | complete w =>
    rcases step_complete_eq call s s1 w hs with ⟨_, rfl⟩ | ⟨t, p1, _, hp1, rfl⟩
    · exact hsame rfl rfl rfl (by simp [stores])
    · obtain ⟨p2, hp2, _, hcompl, htot2, _, _, hdone2, hstores2, _⟩ :=
        yatpool_execute_some call s.pool t
      rw [hp1] at hp2
      simp only [Option.some.injEq] at hp2
      subst hp2
      have hlen : ((stores (s.log
          ++ (yatpool_execute call (some s.pool) (some t)).events)).length : Int)
          = ((stores s.log).length : Int) + 1 := by
        rw [stores_append, hstores2]
        simp
      have hc1 : ((stores s.log).length : Int) + 1 ≤ INT_MAX →
          p1.completed = ((stores s.log).length : Int) + 1 := by
        intro hle
        rw [hcompl, hcnt (by omega)]
        exact wrapInt_id _ (by omega) hle
      refine ⟨by show p1.total_tasks = (T : Int); rw [htot2]; exact htot, ?_, ?_, ?_⟩
      · intro hf
        show ((stores (s.log ++ _)).length : Int) < (T : Int)
        rw [hlen]
        rw [hf] at hdone2
        have h1 := Bool.or_eq_false_iff.mp hdone2.symm
        have hlt := hnd h1.1
        have h2 := h1.2
        rw [← hcompl, hc1 (by omega), htot] at h2
        have h3 : ¬ (((stores s.log).length : Int) + 1 ≥ (T : Int)) := by simpa using h2
        omega
      · intro ht
        show (T : Int) ≤ ((stores (s.log ++ _)).length : Int)
        rw [hlen]
        rw [ht] at hdone2
        rcases Bool.or_eq_true_iff.mp hdone2.symm with h1 | h1
        · have := hdn h1
          omega
        · cases hd0 : s.pool.done with
          | true =>
            have := hdn hd0
            omega
          | false =>
            have hlt := hnd hd0
            rw [← hcompl, hc1 (by omega), htot] at h1
            have h2 : ((stores s.log).length : Int) + 1 ≥ (T : Int) := by simpa using h1
            omega
      · intro hle
        show p1.completed = ((stores (s.log ++ _)).length : Int)
        rw [hlen] at hle ⊢
        exact hc1 hle
  | reset m => simp [Action.is_reset] at hr

theorem einv_run (call : Ptr → Ptr → Ptr) (T : Nat) (acts : List Action) (s s1 : Sys)
    (hT : (T : Int) ≤ INT_MAX)
    (hr : ∀ a ∈ acts, a.is_reset = false) (hs : run call s acts = some s1) (he : einv T s) :
    einv T s1 := by
  induction acts generalizing s with
  | nil =>
    simp [run] at hs
    exact hs ▸ he
  | cons a rest ih =>
    simp only [run] at hs
    cases hstep : step call s a with
    | none => simp [hstep] at hs
    | some s2 =>
      simp only [hstep] at hs
      exact ih s2 (fun b hb => hr b (List.mem_cons_of_mem _ hb)) hs
        (einv_step call T s s2 a hT (hr a (List.mem_cons_self _ _)) hstep he)

/-- C2 (as stated, refuted): a pool declared for `T = 2^31` tasks gets
`total_tasks = -2^31` from the conversion of `num_tasks` to `int`; after one
task was submitted, popped and completed, `done` is set with a single result
recorded, and `yatpool_wait` returns. -/
theorem done_before_all_results :
    early_done_state.map (fun s => (s.pool.done, s.pool.total_tasks, (stores s.log).length))
      = some (true, -2147483648, 1) ∧
    early_done_state.map wait_returns = some true := by
  constructor <;> decide

/-- C2 (amended): `yatpool_wait` leaves its wait loop only when the `done`
flag is set, and in every state reachable (by submissions, dequeue steps and
completion steps) from a pool created with declared task count `T`,
`1 <= T <= INT_MAX`, the `done` flag is set only once `T` results have been
recorded: `total_tasks` is `T`, at least `T` stores were made, and
`completed` is the number of stores, hence `completed >= total_tasks`, as
long as that number does not exceed `INT_MAX` (which is the case whenever
`T + n <= 2^31` for `n` workers); so `yatpool_wait` never returns before `T`
results are recorded. -/
theorem wait_needs_all_results (call : Ptr → Ptr → Ptr) (joined : Nat → Bool) (n T : Nat)
    (s0 : Sys) (acts : List Action) (s : Sys)
    (hT : (T : Int) ≤ INT_MAX)
    (h0 : Sys.init n T = some s0)
    (hr : ∀ a ∈ acts, a.is_reset = false)
    (hs : run call s0 acts = some s) :
    (∀ (p : YATPool) (r : Ret (Option (List Ptr))),
      yatpool_wait joined (some p) = Call.ret r → p.done = true) ∧
    (s.pool.done = true →
      s.pool.total_tasks = (T : Int) ∧ T ≤ (stores s.log).length ∧
      (((stores s.log).length : Int) ≤ INT_MAX →
        s.pool.completed = ((stores s.log).length : Int) ∧
        s.pool.completed ≥ s.pool.total_tasks)) ∧
    (∀ r : Ret (Option (List Ptr)),
      yatpool_wait joined (some s.pool) = Call.ret r → T ≤ (stores s.log).length) ∧
    ((T : Int) + (n : Int) ≤ 2147483648 → s.pool.done = true →
      s.pool.completed ≥ s.pool.total_tasks ∧
      ((stores s.log).length : Int) = s.pool.completed) := by
  have hwait : ∀ (p : YATPool) (r : Ret (Option (List Ptr))),
      yatpool_wait joined (some p) = Call.ret r → p.done = true := by
    intro p r hret
    cases hd : p.done with
    | true => rfl
    | false => simp [yatpool_wait, hd] at hret
  obtain ⟨htot, _, hdn, hcnt⟩ :=
    einv_run call T acts s0 s hT hr hs (einv_init n T s0 hT h0)
  have hdone : s.pool.done = true →
      s.pool.total_tasks = (T : Int) ∧ T ≤ (stores s.log).length ∧
      (((stores s.log).length : Int) ≤ INT_MAX →
        s.pool.completed = ((stores s.log).length : Int) ∧
        s.pool.completed ≥ s.pool.total_tasks) := by
    intro hd
    have h1 := hdn hd
    refine ⟨htot, by omega, fun hle => ?_⟩
    have h2 := hcnt hle
    exact ⟨h2, by omega⟩
  refine ⟨hwait, hdone, fun r hret => (hdone (hwait s.pool r hret)).2.1, fun hfit hd => ?_⟩
  obtain ⟨htot2, _, _, _, _, hdn2, hst2⟩ :=
    dinv_run call n T acts s0 s hfit hr hs (dinv_init n T s0 hfit h0)
  have := hdn2 hd
  exact ⟨by omega, hst2⟩

theorem wait_needs_all_results_witness :
    (((2 : Nat) : Int) ≤ INT_MAX ∧
      Sys.init 1 2 = some init_example ∧
      (∀ a ∈ acts_example, a.is_reset = false) ∧
      run call_example init_example acts_example = some done_example ∧
      done_example.pool.done = true ∧
      ((stores done_example.log).length : Int) ≤ INT_MAX) ∧
    (done_example.pool.total_tasks = ((2 : Nat) : Int) ∧
      2 ≤ (stores done_example.log).length) ∧
    (done_example.pool.completed = ((stores done_example.log).length : Int) ∧
      done_example.pool.completed ≥ done_example.pool.total_tasks) :=
  ⟨⟨by decide, by decide, by decide, by decide, by decide, by decide⟩,
   ⟨((wait_needs_all_results call_example (fun _ => true) 1 2 init_example acts_example
      done_example (by decide) (by decide) (by decide) (by decide)).2.1 (by decide)).1,
    ((wait_needs_all_results call_example (fun _ => true) 1 2 init_example acts_example
      done_example (by decide) (by decide) (by decide) (by decide)).2.1 (by decide)).2.1⟩,
   ((wait_needs_all_results call_example (fun _ => true) 1 2 init_example acts_example
      done_example (by decide) (by decide) (by decide) (by decide)).2.1 (by decide)).2.2
     (by decide)⟩

/-! ## Result slots within one construction/reset cycle -/

theorem step_reset_eq (call : Ptr → Ptr → Ptr) (s s1 : Sys) (m : Nat)
    (h : step call s (Action.reset m) = some s1) :
    m ≠ 0 ∧ s.pool.done = true ∧
    s1 = { s with
      pool := { s.pool with task_queue := { s.pool.task_queue with curr_size := 0 }
                            done := false
                            total_tasks := wrapInt (m : Int)
                            completed := 0 }
      accepted := []
      dequeued := []
      log := s.log ++ (freed_slots s.pool.task_queue).map Event.free_task } := by
  by_cases hm : m = 0
  · simp [step, yatpool_reset, hm] at h
  · cases hd : s.pool.done with
    | false => simp [step, yatpool_reset, hm, hd] at h
    | true =>
      simp [step, yatpool_reset, hm, hd, taskqueue_clear] at h
      exact ⟨hm, rfl, h.symm⟩

theorem step_stores (call : Ptr → Ptr → Ptr) (s s1 : Sys) (a : Action)
    (hr : a.is_reset = false) (hs : step call s a = some s1) :
    (s1.pool.completed = s.pool.completed ∧ stores s1.log = stores s.log) ∨
    (a.is_complete = true ∧ s1.pool.completed = wrapInt (s.pool.completed + 1) ∧
      stores s1.log = stores s.log ++ [s.pool.completed]) := by
  cases a with
  | put t =>
    obtain ⟨_, rfl⟩ := step_put_eq call s s1 t hs
    left
    exact ⟨rfl, by simp [stores]⟩
  | dequeue w =>
    obtain ⟨_, hcase⟩ := step_dequeue_eq call s s1 w hs
    rcases hcase with ⟨_, rfl⟩ | ⟨_, _, task, q, evs, _, hst, _, rfl⟩
    · left
      exact ⟨rfl, by simp [stores]⟩
    · left
      exact ⟨rfl, by simp only [stores_append, hst, List.append_nil]⟩
  | complete w =>
    rcases step_complete_eq call s s1 w hs with ⟨_, rfl⟩ | ⟨t, p1, _, hp1, rfl⟩
    · left
      exact ⟨rfl, by simp [stores]⟩
    · obtain ⟨p2, hp2, _, hcompl, _, _, _, _, hst, _⟩ := yatpool_execute_some call s.pool t
      rw [hp1] at hp2
      simp only [Option.some.injEq] at hp2
      subst hp2
      right
      exact ⟨rfl, hcompl, by simp only [stores_append, hst]⟩
  | reset m => simp [Action.is_reset] at hr

theorem cycle_run (call : Ptr → Ptr → Ptr) (acts : List Action) (s0 s : Sys)
    (hr : ∀ a ∈ acts, a.is_reset = false)
    (hnn : 0 ≤ s0.pool.completed)
    (hb : s0.pool.completed + (completions acts : Int) ≤ INT_MAX)
    (hs : run call s0 acts = some s) :
    ∃ k : Nat, k ≤ completions acts ∧ s.pool.completed = s0.pool.completed + (k : Int) ∧
      stores s.log
        = stores s0.log ++ (List.range k).map (fun (i : Nat) => s0.pool.completed + (i : Int)) := by
  induction acts generalizing s0 with
  | nil =>
    simp [run] at hs
    subst hs
    exact ⟨0, Nat.zero_le _, by simp, by simp⟩
  | cons a rest ih =>
    simp only [run] at hs
    cases hstep : step call s0 a with
    | none => simp [hstep] at hs
    | some s2 =>
      simp only [hstep] at hs
      have hra := hr a (List.mem_cons_self _ _)
      have hrr : ∀ b ∈ rest, b.is_reset = false := fun b hb => hr b (List.mem_cons_of_mem _ hb)
      have hcons : completions (a :: rest)
          = completions rest + (if a.is_complete then 1 else 0) := by
        simp [completions, List.countP_cons]
      rcases step_stores call s0 s2 a hra hstep with ⟨hc, hst⟩ | ⟨hac, hc, hst⟩
      · have hle : completions rest ≤ completions (a :: rest) := by
          rw [hcons]
          omega
        obtain ⟨k, hk, hck, hsk⟩ := ih s2 hrr (by rw [hc]; exact hnn) (by rw [hc]; omega) hs
        exact ⟨k, by omega, by rw [hck, hc], by rw [hsk, hst, hc]⟩
      · have hone : completions (a :: rest) = completions rest + 1 := by
          rw [hcons, hac]
          simp
        rw [hone] at hb
        push_cast at hb
        have hc1 : s2.pool.completed = s0.pool.completed + 1 := by
          rw [hc]
          apply wrapInt_id
          · omega
          · omega
        obtain ⟨k, hk, hck, hsk⟩ := ih s2 hrr (by omega) (by omega) hs
        refine ⟨k + 1, by omega, by rw [hck, hc1]; push_cast; omega, ?_⟩
        rw [hsk, hst, hc1, List.range_succ_eq_map, List.append_assoc]
        congr 1
        simp only [List.map_cons, List.map_map, List.singleton_append, Nat.cast_zero, add_zero,
          List.cons.injEq, true_and]
        apply List.map_congr_left
        intro i _
        simp only [Function.comp_apply, Nat.succ_eq_add_one, Nat.cast_add, Nat.cast_one]
        omega

/-- C3: results are indexed by completion order.  Let `s0` be the state at the
start of a construction/reset cycle (right after `yatpool_init` or right
after a successful `yatpool_reset`) and let `s` be reached from it by
submissions, dequeue steps and completion steps, fewer than `2^31` of them
completions.  Then the slots written so far in the cycle are `0, 1, ..., k-1`
in this order, all different, where `k = completed`; and the next completion
step of `_yatpool_execute` stores its result in `results[k]` and changes no
other slot. -/
theorem results_in_completion_order (call : Ptr → Ptr → Ptr) (s0 : Sys)
    (acts : List Action) (s : Sys)
    (hstart : (∃ n T : Nat, Sys.init n T = some s0) ∨
      (∃ (sp : Sys) (m : Nat), step call sp (Action.reset m) = some s0))
    (hr : ∀ a ∈ acts, a.is_reset = false)
    (hcount : (completions acts : Int) ≤ INT_MAX)
    (hs : run call s0 acts = some s) :
    ∃ k : Nat, k ≤ completions acts ∧ s.pool.completed = (k : Int) ∧
      stores s.log = stores s0.log ++ (List.range k).map (fun (i : Nat) => (i : Int)) ∧
      ((List.range k).map (fun (i : Nat) => (i : Int))).Nodup ∧
      ∀ t : Task, ∃ p1 : YATPool,
        (yatpool_execute call (some s.pool) (some t)).pool = some p1 ∧
        stores (yatpool_execute call (some s.pool) (some t)).events = [(k : Int)] ∧
        p1.retvalarr = s.pool.retvalarr.set k (call t.taskfunc t.arg) ∧
        ∀ j : Nat, j ≠ k → p1.retvalarr[j]? = s.pool.retvalarr[j]? := by
  have hzero : s0.pool.completed = 0 := by
    rcases hstart with ⟨n, T, h⟩ | ⟨sp, m, h⟩
    · obtain ⟨_, _, rfl⟩ := init_eq n T s0 h
      rfl
    · obtain ⟨_, _, rfl⟩ := step_reset_eq call sp s0 m h
      rfl
  obtain ⟨k, hk, hck, hsk⟩ := cycle_run call acts s0 s hr (by omega) (by omega) hs
  rw [hzero] at hck hsk
  simp only [zero_add] at hck hsk
  refine ⟨k, hk, hck, hsk, ?_, fun t => ?_⟩
  · exact (List.nodup_range k).map (fun a b hab => by exact_mod_cast hab)
  · obtain ⟨p1, hp1, hret, _, _, _, _, _, hst, _⟩ := yatpool_execute_some call s.pool t
    have hset : p1.retvalarr = s.pool.retvalarr.set k (call t.taskfunc t.arg) := by
      rw [hret, hck]
      simp [store_slot]
    refine ⟨p1, hp1, by rw [hst, hck], hset, fun j hj => ?_⟩
    rw [hset, List.getElem?_set]
    have : ¬ k = j := fun h => hj h.symm
    simp [this]

theorem results_in_completion_order_witness :
    ((∃ n T : Nat, Sys.init n T = some init_example) ∧
      (∀ a ∈ acts_example, a.is_reset = false) ∧
      (completions acts_example : Int) ≤ INT_MAX ∧
      run call_example init_example acts_example = some done_example) ∧
    ∃ k : Nat, k ≤ completions acts_example ∧ done_example.pool.completed = (k : Int) ∧
      stores done_example.log
        = stores init_example.log ++ (List.range k).map (fun (i : Nat) => (i : Int)) ∧
      ((List.range k).map (fun (i : Nat) => (i : Int))).Nodup ∧
      ∀ t : Task, ∃ p1 : YATPool,
        (yatpool_execute call_example (some done_example.pool) (some t)).pool = some p1 ∧
        stores (yatpool_execute call_example (some done_example.pool) (some t)).events
          = [(k : Int)] ∧
        p1.retvalarr = done_example.pool.retvalarr.set k (call_example t.taskfunc t.arg) ∧
        ∀ j : Nat, j ≠ k → p1.retvalarr[j]? = done_example.pool.retvalarr[j]? :=
  ⟨⟨⟨1, 2, by decide⟩, by decide, by decide, by decide⟩,
   results_in_completion_order call_example init_example acts_example done_example
     (Or.inl ⟨1, 2, by decide⟩) (by decide) (by decide) (by decide)⟩

/-! ## Submission order and dequeue order -/

theorem work_calls_append (l1 l2 : List Event) :
    work_calls (l1 ++ l2) = work_calls l1 ++ work_calls l2 := by
  simp [work_calls]

theorem work_calls_thread_create (l : List Nat) :
    work_calls (l.map Event.thread_create) = [] := by
  induction l with
  | nil => rfl
  | cons x xs ih =>
    simp only [work_calls, List.map_cons, List.filterMap_cons] at ih ⊢
    exact ih

theorem calls_of_map_some (l : List Task) : calls_of (l.map some) = l.map task_call := by
  induction l with
  | nil => rfl
  | cons x xs ih =>
    simp only [calls_of, List.map_cons, List.filterMap_cons, Option.map_some'] at ih ⊢
    rw [ih]

theorem single_get (x y : Worker) (w : Nat) (h : [x].get? w = some y) : w = 0 ∧ y = x := by
  cases w with
  | zero =>
    simp at h
    exact ⟨rfl, h.symm⟩
  | succ k => simp at h

theorem sinv_init (T : Nat) (s0 : Sys) (h : Sys.init 1 T = some s0) : sinv s0 := by
  obtain ⟨_, _, rfl⟩ := init_eq 1 T s0 h
  right
  exact ⟨Or.inl rfl, by simp [work_calls, calls_of]⟩

theorem sinv_step (call : Ptr → Ptr → Ptr) (s s1 : Sys) (a : Action)
    (hr : a.is_reset = false) (hs : step call s a = some s1) (hv : sinv s) : sinv s1 := by
  cases a with
  | put t =>
    obtain ⟨_, rfl⟩ := step_put_eq call s s1 t hs
    rcases hv with ⟨task, d, hw, hd, hc⟩ | ⟨hw, hc⟩
    · left
      exact ⟨task, d, hw, hd, by simp only [work_calls_append, hc]; simp [work_calls]⟩
    · right
      exact ⟨hw, by simp only [work_calls_append, hc]; simp [work_calls]⟩
  | dequeue w =>
    obtain ⟨hget, hcase⟩ := step_dequeue_eq call s s1 w hs
    rcases hv with ⟨task, d, hw, hd, hc⟩ | ⟨hw, hc⟩
    · rw [hw] at hget
      have := (single_get _ _ _ hget).2
      cases this
    · have hidle : s.workers = [Worker.idle] ∧ w = 0 := by
        rcases hw with hw | hw
        · rw [hw] at hget
          exact ⟨hw, (single_get _ _ _ hget).1⟩
        · rw [hw] at hget
          have := (single_get _ _ _ hget).2
          cases this
      obtain ⟨hw1, rfl⟩ := hidle
      rcases hcase with ⟨_, rfl⟩ | ⟨_, _, task, q, evs, _, _, hcalls, rfl⟩
      · right
        refine ⟨Or.inr (by simp [hw1]), ?_⟩
        simp only [work_calls_append, hc]
        simp [work_calls]
      · left
        refine ⟨task, s.dequeued, by simp [hw1], rfl, ?_⟩
        simp only [work_calls_append, hc, hcalls, List.append_nil]
  | complete w =>
    rcases hv with ⟨task, d, hw, hd, hc⟩ | ⟨hw, hc⟩
    · rcases step_complete_eq call s s1 w hs with ⟨hget, rfl⟩ | ⟨t, p1, hget, hp1, rfl⟩
      · rw [hw] at hget
        obtain ⟨rfl, htask⟩ := single_get _ _ _ hget
        simp only [Worker.running.injEq] at htask
        right
        refine ⟨Or.inl (by simp [hw]), ?_⟩
        simp only [work_calls_append, hc, hd, ← htask]
        simp [work_calls, calls_of]
      · rw [hw] at hget
        obtain ⟨rfl, htask⟩ := single_get _ _ _ hget
        simp only [Worker.running.injEq] at htask
        obtain ⟨_, _, _, _, _, _, _, _, _, hcalls⟩ := yatpool_execute_some call s.pool t
        right
        refine ⟨Or.inl (by simp [hw]), ?_⟩
        simp only [work_calls_append, hc, hd, hcalls, ← htask]
        simp [calls_of, task_call]
    · exfalso
      rcases step_complete_eq call s s1 w hs with ⟨hget, _⟩ | ⟨t, p1, hget, _, _⟩ <;>
      rcases hw with hw | hw <;>
      · rw [hw] at hget
        have := (single_get _ _ _ hget).2
        cases this
  | reset m => simp [Action.is_reset] at hr

theorem sinv_run (call : Ptr → Ptr → Ptr) (acts : List Action) (s s1 : Sys)
    (hr : ∀ a ∈ acts, a.is_reset = false) (hs : run call s acts = some s1) (hv : sinv s) :
    sinv s1 := by
  induction acts generalizing s with
  | nil =>
    simp [run] at hs
    exact hs ▸ hv
  | cons a rest ih =>
    simp only [run] at hs
    cases hstep : step call s a with
    | none => simp [hstep] at hs
    | some s2 =>
      simp only [hstep] at hs
      exact ih s2 (fun b hb => hr b (List.mem_cons_of_mem _ hb)) hs
        (sinv_step call s s2 a (hr a (List.mem_cons_self _ _)) hstep hv)

/-- C4: submission order defines dequeue order.  In every pool state reachable
from `yatpool_init` by `yatpool_put` submissions and worker dequeue and
completion steps (without a reset), the tasks dequeued by workers so far,
followed by the tasks currently in the queue from head to tail, are the tasks
accepted by `yatpool_put` in the order they were accepted; and with a single
worker thread the work-function calls made so far are, in order, exactly
those of the first `k` accepted tasks (`k` is the number of dequeued tasks,
less one while the worker still holds a task), so a task submitted before
another has its work function run before the other's begins. -/
theorem fifo_dequeue_order (call : Ptr → Ptr → Ptr) (n T : Nat) (s0 : Sys)
    (acts : List Action) (s : Sys)
    (h0 : Sys.init n T = some s0)
    (hr : ∀ a ∈ acts, a.is_reset = false)
    (hs : run call s0 acts = some s) :
    s.dequeued ++ s.pool.task_queue.items = s.accepted.map some ∧
    (n = 1 → ∃ k : Nat, k ≤ s.dequeued.length ∧ s.dequeued.length ≤ k + 1 ∧
      work_calls s.log = (s.accepted.take k).map task_call) := by
  have hq := qinv_run call acts s0 s hr hs (qinv_init n T s0 h0)
  refine ⟨hq.2, fun hn => ?_⟩
  subst hn
  have hv := sinv_run call acts s0 s hr hs (sinv_init T s0 h0)
  have hpre : s.dequeued <+: s.accepted.map some := ⟨_, hq.2⟩
  have key : ∀ d : List (Option Task), d <+: s.dequeued →
      calls_of d = (s.accepted.take d.length).map task_call := by
    intro d hd
    have h1 := List.prefix_iff_eq_take.mp (hd.trans hpre)
    rw [← List.map_take] at h1
    conv => lhs; rw [h1]
    exact calls_of_map_some _
  rcases hv with ⟨task, d, _, hd, hc⟩ | ⟨_, hc⟩
  · refine ⟨d.length, by simp [hd], by simp [hd], ?_⟩
    rw [hc]
    exact key d ⟨[task], hd.symm⟩
  · refine ⟨s.dequeued.length, le_refl _, by omega, ?_⟩
    rw [hc]
    exact key s.dequeued (List.prefix_refl _)

theorem fifo_dequeue_order_witness :
    (Sys.init 1 2 = some init_example ∧
      (∀ a ∈ acts_example, a.is_reset = false) ∧
      run call_example init_example acts_example = some done_example ∧ 1 = 1) ∧
    ∃ k : Nat, k ≤ done_example.dequeued.length ∧ done_example.dequeued.length ≤ k + 1 ∧
      work_calls done_example.log = (done_example.accepted.take k).map task_call :=
  ⟨⟨by decide, by decide, by decide, rfl⟩,
   (fifo_dequeue_order call_example 1 2 init_example acts_example done_example
     (by decide) (by decide) (by decide)).2 rfl⟩

/-! ## Teardown of pending tasks and the size of the results block -/

/-- C9 (code evaluated at the failing input): with `task_b`, whose destructor
is 7, pending in the queue, `yatpool_destroy` only frees the task and the
result slot, and the queue clear of `yatpool_reset` only frees the task; in
both cases no destructor is called. -/
theorem pending_task_freed_without_destructor :
    pending_state.map (fun s => (s.pool.task_queue.items, destroy_events s,
        (destroy_events s).map destructor_calls))
      = some ([some task_b],
          some [Event.free_task (some task_b), Event.free_result 0], some []) ∧
    done_pending_state.map (fun s => (s.pool.task_queue.items, reset_events s 1,
        (reset_events s 1).map destructor_calls))
      = some ([some task_b], some [Event.free_task (some task_b)], some []) := by
  constructor <;> decide

/-- C10 (code evaluated at the failing input): after `yatpool_init(&pool, 2, 1)`
and a successful `yatpool_reset(pool, 2)` the results block still has one slot
while `total_tasks` is 2; in the second batch `completed` reaches 1, which is
below `total_tasks`, and the next store goes to slot 1, outside the block. -/
theorem results_block_not_resized_by_reset :
    reset_state.map (fun s => (s.pool.retvalarr.length, s.pool.total_tasks)) = some (1, 2) ∧
    second_batch_state.map (fun s =>
        (s.pool.retvalarr.length, s.pool.total_tasks, s.pool.completed))
      = some (1, 2, 1) ∧
    second_batch_state.map (fun s =>
        (decide (s.pool.completed < s.pool.total_tasks),
         decide (s.pool.completed < (s.pool.retvalarr.length : Int)),
         stores (yatpool_execute call_example (some s.pool) (some task_a)).events))
      = some (true, false, [1]) := by
  refine ⟨?_, ?_, ?_⟩ <;> decide

/-! ## Construction, reset and absent arguments -/

/-- Behaviour of `yatpool_reset(pool, n)` on a non-null pool: it ends the
process if and only if `n` is 0 or the pool's `done` flag is not set, and it
never blocks; when it returns the queue is empty, `completed` is 0,
`total_tasks` is `n` converted to `int` (which is `n` itself when
`n <= INT_MAX`), `done` is false and `pool_size` is unchanged. -/
theorem yatpool_reset_contract (p : YATPool) (n : Nat) :
    (yatpool_reset (some p) n = Call.exit1 ↔ (n = 0 ∨ p.done = false)) ∧
    yatpool_reset (some p) n ≠ Call.blocked ∧
    ((n ≠ 0 ∧ p.done = true) →
      ∃ (r : Ret Unit) (p1 : YATPool),
        yatpool_reset (some p) n = Call.ret r ∧ r.pool = some p1 ∧
        p1.task_queue.curr_size = 0 ∧ p1.task_queue.items = [] ∧
        taskqueue_empty (some p1.task_queue) = Call.ret true ∧
        p1.task_queue.length = p.task_queue.length ∧
        p1.completed = 0 ∧
        p1.total_tasks = wrapInt (n : Int) ∧
        ((n : Int) ≤ INT_MAX → p1.total_tasks = (n : Int)) ∧
        p1.done = false ∧
        p1.pool_size = p.pool_size) := by
  by_cases hn : n = 0
  · simp [yatpool_reset, hn]
  · cases hd : p.done with
    | false => simp [yatpool_reset, hn, hd]
    | true =>
      refine ⟨by simp [yatpool_reset, hn, hd, taskqueue_clear],
        by simp [yatpool_reset, hn, hd, taskqueue_clear], fun _ => ?_⟩
      refine ⟨{ pool := some { p with task_queue := { p.task_queue with curr_size := 0 }
                                      done := false
                                      total_tasks := wrapInt (n : Int)
                                      completed := 0 }
                value := ()
                events := (freed_slots p.task_queue).map Event.free_task },
        { p with task_queue := { p.task_queue with curr_size := 0 }
                 done := false
                 total_tasks := wrapInt (n : Int)
                 completed := 0 },
        by simp [yatpool_reset, hn, hd, taskqueue_clear], rfl, rfl,
        by simp [TaskQueue.items], by simp [taskqueue_empty], rfl, rfl, rfl, fun hle => ?_,
        rfl, rfl⟩
      show wrapInt (n : Int) = (n : Int)
      exact wrapInt_id _ (by omega) hle

theorem yatpool_reset_contract_witness :
    ((3 : Nat) ≠ 0 ∧ done_example.pool.done = true ∧ ((3 : Nat) : Int) ≤ INT_MAX) ∧
    ∃ (r : Ret Unit) (p1 : YATPool),
      yatpool_reset (some done_example.pool) 3 = Call.ret r ∧ r.pool = some p1 ∧
      p1.task_queue.curr_size = 0 ∧ p1.task_queue.items = [] ∧
      taskqueue_empty (some p1.task_queue) = Call.ret true ∧
      p1.task_queue.length = done_example.pool.task_queue.length ∧
      p1.completed = 0 ∧
      p1.total_tasks = wrapInt ((3 : Nat) : Int) ∧
      ((((3 : Nat) : Int) ≤ INT_MAX) → p1.total_tasks = ((3 : Nat) : Int)) ∧
      p1.done = false ∧
      p1.pool_size = done_example.pool.pool_size :=
  ⟨⟨by decide, by decide, by decide⟩,
   (yatpool_reset_contract done_example.pool 3).2.2 ⟨by decide, by decide⟩⟩

/-- C11 (code evaluated at the failing input): on a pool whose batch is done,
`yatpool_reset(pool, 2^32)` passes the `num_tasks == 0` test and returns with
`total_tasks = 0`, and `yatpool_reset(pool, 2^31)` returns with
`total_tasks = -2^31`: the assignment of the `size_t` count to the `int`
field does not keep its value. -/
theorem reset_narrows_task_count :
    done_example.pool.done = true ∧
    reset_total_tasks done_example.pool 4294967296 = some 0 ∧
    reset_total_tasks done_example.pool 2147483648 = some (-2147483648) := by
  refine ⟨?_, ?_, ?_⟩ <;> decide

/-- C12 (as stated, refuted): with non-zero counts `yatpool_init` still ends
the process when `pthread_create` fails for a worker, and
`yatpool_init(&pool, 1, 2^32)` returns with `total_tasks = 0`. -/
theorem init_fails_without_zero_count :
    yatpool_init (fun _ => false) (some none) 1 1 = Call.exit1 ∧
    init_total_tasks (fun _ => true) 1 4294967296 = some 0 := by
  constructor <;> decide

/-- C12 (amended): `yatpool_init(pool, num_threads, num_tasks)` on a valid
handle fails (ends the process) if and only if `num_threads` is 0 or
`num_tasks` is 0 or `pthread_create` fails for one of the `num_threads`
workers, and it never blocks; when it succeeds the new pool has `pool_size`
equal to `num_threads` (which `yatpool_pool_size` returns), `total_tasks`
equal to `num_tasks` whenever `num_tasks <= INT_MAX`, `completed` equal to 0,
`done` false, and an empty queue of capacity 100. -/
theorem yatpool_init_contract (created : Nat → Bool) (h : Option YATPool)
    (num_threads num_tasks : Nat) :
    (yatpool_init created (some h) num_threads num_tasks = Call.exit1
      ↔ (num_threads = 0 ∨ num_tasks = 0 ∨
          ∃ i : Nat, i < num_threads ∧ created i = false)) ∧
    yatpool_init created (some h) num_threads num_tasks ≠ Call.blocked ∧
    ((num_threads ≠ 0 ∧ num_tasks ≠ 0 ∧ ∀ i : Nat, i < num_threads → created i = true) →
      ∃ (p : YATPool) (evs : List Event),
        yatpool_init created (some h) num_threads num_tasks
          = Call.ret (some (some p), evs) ∧
        p.pool_size = num_threads ∧
        yatpool_pool_size (some p) = (num_threads, []) ∧
        ((num_tasks : Int) ≤ INT_MAX → p.total_tasks = (num_tasks : Int)) ∧
        p.completed = 0 ∧
        p.done = false ∧
        p.task_queue.curr_size = 0 ∧ p.task_queue.items = [] ∧
        taskqueue_empty (some p.task_queue) = Call.ret true ∧
        p.task_queue.length = 100 ∧ p.task_queue.data.length = 100) := by
  by_cases hn : num_threads = 0
  · simp [yatpool_init, hn]
  · by_cases hT : num_tasks = 0
    · simp [yatpool_init, hn, hT]
    · rcases thread_loop_cases created Event.thread_create num_threads 0 with
        ⟨hloop, hall⟩ | ⟨hloop, hex⟩
      · have hall1 : ∀ i : Nat, i < num_threads → created i = true :=
          fun i hi => hall i (Nat.zero_le _) (by omega)
        have hno : ¬ ∃ i : Nat, i < num_threads ∧ created i = false := by
          rintro ⟨i, hi, hf⟩
          rw [hall1 i hi] at hf
          cases hf
        have hret : yatpool_init created (some h) num_threads num_tasks
            = Call.ret (some (some
                { pool_size := num_threads
                  task_queue := { length := 100, curr_size := 0,
                                  data := List.replicate 100 none }
                  retvalarr := List.replicate num_tasks NULL
                  done := false
                  completed := 0
                  total_tasks := wrapInt (num_tasks : Int) }),
                (List.range' 0 num_threads).map Event.thread_create) := by
          simp only [yatpool_init, hn, hT, taskqueue_init, MAX_QUEUE_SIZE,
            yatpool_create_threads, if_false, hloop]
          simp
        refine ⟨by rw [hret]; simp [hn, hT, hno], by rw [hret]; simp, fun _ => ?_⟩
        refine ⟨_, _, hret, rfl, rfl, fun hle => ?_, rfl, rfl, rfl, by simp [TaskQueue.items],
          by simp [taskqueue_empty], rfl, by simp⟩
        show wrapInt (num_tasks : Int) = (num_tasks : Int)
        exact wrapInt_id _ (by omega) hle
      · have hex1 : ∃ i : Nat, i < num_threads ∧ created i = false := by
          obtain ⟨j, _, hj, hf⟩ := hex
          exact ⟨j, by omega, hf⟩
        have hexit : yatpool_init created (some h) num_threads num_tasks = Call.exit1 := by
          simp only [yatpool_init, hn, hT, taskqueue_init, MAX_QUEUE_SIZE,
            yatpool_create_threads, if_false, hloop]
          simp
        refine ⟨by rw [hexit]; simp [hex1], by rw [hexit]; simp, fun hall => ?_⟩
        obtain ⟨i, hi, hf⟩ := hex1
        rw [hall.2.2 i hi] at hf
        cases hf

theorem yatpool_init_contract_witness :
    ((4 : Nat) ≠ 0 ∧ (9 : Nat) ≠ 0 ∧ (∀ i : Nat, i < 4 → (fun _ => true) i = true) ∧
      ((9 : Nat) : Int) ≤ INT_MAX) ∧
    ∃ (p : YATPool) (evs : List Event),
      yatpool_init (fun _ => true) (some none) 4 9 = Call.ret (some (some p), evs) ∧
      p.pool_size = 4 ∧
      yatpool_pool_size (some p) = (4, []) ∧
      ((((9 : Nat) : Int) ≤ INT_MAX) → p.total_tasks = ((9 : Nat) : Int)) ∧
      p.completed = 0 ∧
      p.done = false ∧
      p.task_queue.curr_size = 0 ∧ p.task_queue.items = [] ∧
      taskqueue_empty (some p.task_queue) = Call.ret true ∧
      p.task_queue.length = 100 ∧ p.task_queue.data.length = 100 :=
  ⟨⟨by decide, by decide, fun _ _ => rfl, by decide⟩,
   (yatpool_init_contract (fun _ => true) none 4 9).2.2
     ⟨by decide, by decide, fun _ _ => rfl⟩⟩

/-- C13: `task_init(task, work, arg, destructor)` on a valid handle with an
absent (null) work function creates no task and leaves the caller's task
handle unchanged; for every non-null work function it creates a task whose
work function, argument and destructor are exactly the ones given, also when
the argument or the destructor is absent, and it calls neither the work
function nor the destructor. -/
theorem task_init_contract (h : Option Task) (taskfunc arg argdestructor : Ptr) :
    (taskfunc = NULL →
      (task_init (some h) taskfunc arg argdestructor).1 = some h ∧
      work_calls (task_init (some h) taskfunc arg argdestructor).2 = [] ∧
      destructor_calls (task_init (some h) taskfunc arg argdestructor).2 = []) ∧
    (taskfunc ≠ NULL →
      (task_init (some h) taskfunc arg argdestructor).1
        = some (some { taskfunc := taskfunc, arg := arg, argdestructor := argdestructor }) ∧
      (task_init (some h) taskfunc arg argdestructor).2 = [] ∧
      work_calls (task_init (some h) taskfunc arg argdestructor).2 = [] ∧
      destructor_calls (task_init (some h) taskfunc arg argdestructor).2 = []) := by
  constructor
  · intro hf
    simp [task_init, hf, work_calls, destructor_calls]
  · intro hf
    simp [task_init, hf, work_calls, destructor_calls]

theorem task_init_contract_witness :
    ((0 : Ptr) = NULL ∧ (5 : Ptr) ≠ NULL) ∧
    ((task_init (some (some task_a)) 0 10 7).1 = some (some task_a) ∧
      work_calls (task_init (some (some task_a)) 0 10 7).2 = [] ∧
      destructor_calls (task_init (some (some task_a)) 0 10 7).2 = []) ∧
    ((task_init (some none) 5 0 0).1
        = some (some { taskfunc := 5, arg := 0, argdestructor := 0 }) ∧
      (task_init (some none) 5 0 0).2 = [] ∧
      work_calls (task_init (some none) 5 0 0).2 = [] ∧
      destructor_calls (task_init (some none) 5 0 0).2 = []) :=
  ⟨⟨by decide, by decide⟩,
   (task_init_contract (some task_a) 0 10 7).1 (by decide),
   (task_init_contract none 5 0 0).2 (by decide)⟩

/-- C14: submitting an absent task is a no-op.  For every pool (null or not),
`yatpool_put(pool, NULL)` returns, after reporting the error, without
changing the pool (its queue, `completed`, `done`, `total_tasks` and results
are as before), and `_yatpool_execute(pool, NULL)` returns null without
calling a work function or a destructor, without a store and without changing
the pool. -/
theorem absent_task_is_noop (call : Ptr → Ptr → Ptr) (pool : Option YATPool) :
    yatpool_put pool none = Call.ret { pool := pool, value := (), events := [Event.err] } ∧
    (yatpool_execute call pool none).pool = pool ∧
    (yatpool_execute call pool none).value = NULL ∧
    (yatpool_execute call pool none).events = [Event.err] ∧
    work_calls (yatpool_execute call pool none).events = [] ∧
    destructor_calls (yatpool_execute call pool none).events = [] ∧
    stores (yatpool_execute call pool none).events = [] := by
  refine ⟨rfl, rfl, rfl, rfl, rfl, rfl, rfl⟩

/-! ## Capacity of the queue -/

theorem apply_op_shape {α : Type} (q : TaskQueue α) (op : QueueOp α) :
    (apply_op q op).length = q.length ∧ (apply_op q op).data.length = q.data.length ∧
    (q.curr_size ≤ q.length → (apply_op q op).curr_size ≤ q.length) := by
  cases op with
  | put value =>
    cases value with
    | none => simp [apply_op, taskqueue_put]
    | some v =>
      by_cases hgt : (q.curr_size + 1) % SIZE_MOD > q.length
      · simp [apply_op, taskqueue_put, hgt]
      · have e : apply_op q (QueueOp.put (some v))
            = { q with data := q.data.set q.curr_size (some v),
                       curr_size := (q.curr_size + 1) % SIZE_MOD } := by
          simp [apply_op, taskqueue_put, hgt]
        rw [e]
        exact ⟨rfl, by simp, fun _ => Nat.le_of_not_gt hgt⟩
  | pop =>
    by_cases h0 : q.curr_size = 0
    · simp [apply_op, taskqueue_pop, h0, EMPTY_QUEUE_VALUE]
    · have e : apply_op q QueueOp.pop
          = { q with data := shift_loop q.data 0 (q.curr_size - 1),
                     curr_size := q.curr_size - 1 } := by
        simp [apply_op, taskqueue_pop, h0]
      rw [e]
      exact ⟨rfl, by simp [shift_loop_length],
        fun h => by show q.curr_size - 1 ≤ q.length; omega⟩
  | clear => simp [apply_op, taskqueue_clear]
  | get => simp [apply_op]
  | size => simp [apply_op]
  | empty => simp [apply_op]
  | full => simp [apply_op]

theorem run_ops_shape {α : Type} (ops : List (QueueOp α)) (q : TaskQueue α)
    (hle : q.curr_size ≤ q.length) :
    (run_ops q ops).length = q.length ∧ (run_ops q ops).data.length = q.data.length ∧
    (run_ops q ops).curr_size ≤ q.length := by
  induction ops generalizing q with
  | nil => exact ⟨rfl, rfl, hle⟩
  | cons op rest ih =>
    obtain ⟨h1, h2, h3⟩ := apply_op_shape q op
    have h4 := ih (apply_op q op) (by rw [h1]; exact h3 hle)
    simp only [run_ops]
    rw [h1, h2] at h4
    exact h4

/-- C15: the queue never exceeds its capacity and is never resized.  For every
queue created by `taskqueue_init` with capacity `c` (which is then at least 1)
and every sequence of `taskqueue_put`, `taskqueue_get`, `taskqueue_pop`,
`taskqueue_size`, `taskqueue_empty`, `taskqueue_full` and `taskqueue_clear`
calls, the current length stays at most `c`, and the capacity and the block
stay of size `c`; `taskqueue_get`, `taskqueue_size`, `taskqueue_empty` and
`taskqueue_full` leave the queue unchanged, `taskqueue_size` returns the
current length, `taskqueue_empty` is true exactly when the length is 0 and
`taskqueue_full` is true exactly when the length equals `c`. -/
theorem queue_never_exceeds_capacity {α : Type} (c : Nat) (q0 : TaskQueue α)
    (ops : List (QueueOp α)) (h : taskqueue_init c = Call.ret q0) :
    1 ≤ c ∧
    (run_ops q0 ops).curr_size ≤ c ∧
    (run_ops q0 ops).items.length = (run_ops q0 ops).curr_size ∧
    (run_ops q0 ops).length = c ∧
    (run_ops q0 ops).data.length = c ∧
    apply_op (run_ops q0 ops) QueueOp.get = run_ops q0 ops ∧
    apply_op (run_ops q0 ops) QueueOp.size = run_ops q0 ops ∧
    apply_op (run_ops q0 ops) QueueOp.empty = run_ops q0 ops ∧
    apply_op (run_ops q0 ops) QueueOp.full = run_ops q0 ops ∧
    taskqueue_size (some (run_ops q0 ops)) = Call.ret (run_ops q0 ops).curr_size ∧
    (taskqueue_empty (some (run_ops q0 ops)) = Call.ret true
      ↔ (run_ops q0 ops).curr_size = 0) ∧
    (taskqueue_empty (some (run_ops q0 ops)) = Call.ret false
      ↔ (run_ops q0 ops).curr_size ≠ 0) ∧
    (taskqueue_full (some (run_ops q0 ops)) = Call.ret true
      ↔ (run_ops q0 ops).curr_size = c) ∧
    (taskqueue_full (some (run_ops q0 ops)) = Call.ret false
      ↔ (run_ops q0 ops).curr_size ≠ c) := by
  by_cases hc : c = 0
  · simp [taskqueue_init, hc] at h
  · simp only [taskqueue_init, hc, if_false, Call.ret.injEq] at h
    subst h
    obtain ⟨h1, h2, h3⟩ := run_ops_shape ops
      ({ length := c, curr_size := 0, data := List.replicate c none } : TaskQueue α)
      (Nat.zero_le _)
    simp only [List.length_replicate] at h1 h2 h3
    refine ⟨by omega, h3, ?_, h1, h2, rfl, rfl, rfl, rfl, rfl, ?_, ?_, ?_, ?_⟩
    · apply items_length
      rw [h2]
      exact h3
    · simp [taskqueue_empty]
    · simp [taskqueue_empty]
    · simp [taskqueue_full, h1]
    · simp [taskqueue_full, h1]

theorem queue_never_exceeds_capacity_witness :
    (taskqueue_init 2 = Call.ret fresh_queue_example) ∧
    (run_ops fresh_queue_example ops_example).curr_size ≤ 2 ∧
    (run_ops fresh_queue_example ops_example).length = 2 ∧
    (taskqueue_empty (some (run_ops fresh_queue_example ops_example)) = Call.ret true
      ↔ (run_ops fresh_queue_example ops_example).curr_size = 0) :=
  ⟨by decide,
   (queue_never_exceeds_capacity 2 fresh_queue_example ops_example (by decide)).2.1,
   (queue_never_exceeds_capacity 2 fresh_queue_example ops_example (by decide)).2.2.2.1,
   (queue_never_exceeds_capacity 2 fresh_queue_example ops_example
     (by decide)).2.2.2.2.2.2.2.2.2.2.1⟩

/-! ## The worker loop and submission -/

theorem set_get_self (ws : List Worker) (w : Nat) (x y : Worker) (h : ws.get? w = some x) :
    (ws.set w y).get? w = some y := by
  rw [List.get?_eq_getElem?] at h ⊢
  obtain ⟨hlt, _⟩ := List.getElem?_eq_some.mp h
  simp [List.getElem?_set, hlt]

theorem start_thread_done (p : YATPool) (hd : p.done = true) :
    yatpool_start_thread p = Call.ret (none, [Event.lock, Event.unlock]) := by
  simp [yatpool_start_thread, taskqueue_empty, hd]

theorem start_thread_wait (p : YATPool) (hd : p.done = false)
    (h0 : p.task_queue.curr_size = 0) : yatpool_start_thread p = Call.blocked := by
  simp [yatpool_start_thread, taskqueue_empty, hd, h0]

/-- C16 (as stated, refuted): in the state where the batch of one declared
task is done while `task_b` is still pending, the queue is non-empty, and the
worker that has finished waiting leaves its loop without popping the task:
after its step it has exited and the task is still in the queue. -/
theorem worker_exits_with_pending_task :
    done_pending_state.map (fun s =>
        (s.pool.done, s.pool.task_queue.items, yatpool_start_thread s.pool))
      = some (true, [some task_b], Call.ret (none, [Event.lock, Event.unlock])) ∧
    (done_pending_state.bind (fun s => step call_example s (Action.dequeue 0))).map
        (fun s => (s.workers, s.pool.task_queue.items))
      = some ([Worker.exited], [some task_b]) := by
  constructor
  · rfl
  · decide

theorem finv_init (n T : Nat) (s0 : Sys) (h : Sys.init n T = some s0) : finv s0 := by
  obtain ⟨_, _, rfl⟩ := init_eq n T s0 h
  intro _ hd
  simp at hd

theorem finv_step (call : Ptr → Ptr → Ptr) (s s1 : Sys) (a : Action)
    (hr : a.is_reset = false) (hs : step call s a = some s1) (hc : cinv s) (hf : finv s) :
    finv s1 := by
  cases a with
  | put t =>
    obtain ⟨_, rfl⟩ := step_put_eq call s s1 t hs
    exact hf
  | dequeue w =>
    obtain ⟨_, hcase⟩ := step_dequeue_eq call s s1 w hs
    rcases hcase with ⟨_, rfl⟩ | ⟨_, _, task, q, evs, _, _, _, rfl⟩
    · exact hf
    · intro hd hdone
      simp only [List.length_append, List.length_singleton, Nat.cast_add, Nat.cast_one] at hd
      exact hf (by omega) hdone
  | complete w =>
    rcases step_complete_eq call s s1 w hs with ⟨_, rfl⟩ | ⟨t, p1, hw, hp1, rfl⟩
    · exact hf
    · obtain ⟨p2, hp2, _, hcompl, htot2, _, _, hdone2, _, _⟩ :=
        yatpool_execute_some call s.pool t
      rw [hp1] at hp2
      simp only [Option.some.injEq] at hp2
      subst hp2
      have hrun := running_set s.workers w (Worker.running (some t)) Worker.idle hw
      simp [Worker.is_running] at hrun
      intro hd1 hdone
      have hd : (s.dequeued.length : Int) ≤ INT_MAX := hd1
      show p1.total_tasks ≤ p1.completed
      have hcin := hc.2 hd
      have hc1 : p1.completed = s.pool.completed + 1 := by
        rw [hcompl]
        apply wrapInt_id
        · omega
        · omega
      have hdone1 : p1.done = true := hdone
      rw [hdone1] at hdone2
      rw [htot2]
      rcases Bool.or_eq_true_iff.mp hdone2.symm with h1 | h1
      · have := hf hd h1
        omega
      · rw [← hcompl, hc1] at h1
        have h2 : s.pool.completed + 1 ≥ s.pool.total_tasks := by simpa using h1
        omega
  | reset m => simp [Action.is_reset] at hr

theorem finv_run (call : Ptr → Ptr → Ptr) (acts : List Action) (s s1 : Sys)
    (hr : ∀ a ∈ acts, a.is_reset = false) (hs : run call s acts = some s1)
    (hc : cinv s) (hf : finv s) : finv s1 := by
  induction acts generalizing s with
  | nil =>
    simp [run] at hs
    exact hs ▸ hf
  | cons a rest ih =>
    simp only [run] at hs
    cases hstep : step call s a with
    | none => simp [hstep] at hs
    | some s2 =>
      simp only [hstep] at hs
      have hra := hr a (List.mem_cons_self _ _)
      exact ih s2 (fun b hb => hr b (List.mem_cons_of_mem _ hb)) hs
        (cinv_step call s s2 a hra hstep hc).1 (finv_step call s s2 a hra hstep hc hf)

/-- In a state reached without a reset in which at most `total_tasks` tasks
have been accepted, a terminated pool has an empty queue. -/
theorem done_queue_empty (call : Ptr → Ptr → Ptr) (n T : Nat) (s0 : Sys)
    (acts : List Action) (s : Sys)
    (h0 : Sys.init n T = some s0)
    (hr : ∀ a ∈ acts, a.is_reset = false)
    (hs : run call s0 acts = some s)
    (hacc : (s.accepted.length : Int) ≤ s.pool.total_tasks)
    (hd : s.pool.done = true) :
    s.pool.task_queue.curr_size = 0 := by
  have hq := qinv_run call acts s0 s hr hs (qinv_init n T s0 h0)
  have hc := cinv_run call acts s0 s hr hs (cinv_init n T s0 h0)
  have hf := finv_run call acts s0 s hr hs (cinv_init n T s0 h0) (finv_init n T s0 h0)
  have hlen := congrArg List.length hq.2
  simp only [List.length_append, List.length_map] at hlen
  have hwf := hq.1
  have hitems := items_length s.pool.task_queue (by have h1 := hwf.1; have h2 := hwf.2.1; omega)
  have hmax := hc.1
  have hdq : (s.dequeued.length : Int) ≤ INT_MAX := by omega
  obtain ⟨_, hsum⟩ := hc.2 hdq
  have hfin := hf hdq hd
  omega

theorem worker_pass_cases (call : Ptr → Ptr → Ptr) (s : Sys) (w : Nat)
    (hw : s.workers.get? w = some Worker.idle)
    (hle : s.pool.task_queue.curr_size ≤ s.pool.task_queue.data.length) :
    (yatpool_start_thread s.pool = Call.blocked
      ↔ (s.pool.task_queue.curr_size = 0 ∧ s.pool.done = false)) ∧
    (yatpool_start_thread s.pool = Call.ret (none, [Event.lock, Event.unlock])
      ↔ s.pool.done = true) ∧
    (s.pool.done = true →
      ∃ s1 : Sys, step call s (Action.dequeue w) = some s1 ∧
        s1.workers.get? w = some Worker.exited ∧ s1.pool = s.pool) ∧
    (s.pool.done = false → s.pool.task_queue.curr_size ≠ 0 →
      ∃ s1 s2 : Sys, step call s (Action.dequeue w) = some s1 ∧
        s1.workers.get? w = some (Worker.running (s.pool.task_queue.items.headD none)) ∧
        s1.pool.task_queue.items = s.pool.task_queue.items.tail ∧
        step call s1 (Action.complete w) = some s2 ∧
        s2.workers.get? w = some Worker.idle ∧
        ∀ t : Task, s.pool.task_queue.items.headD none = some t →
          work_calls s2.log = work_calls s.log ++ [task_call t]) := by
  refine ⟨?_, ?_, ?_, ?_⟩
  · cases hd : s.pool.done with
    | true => simp [start_thread_done s.pool hd]
    | false =>
      by_cases h0 : s.pool.task_queue.curr_size = 0
      · simp [start_thread_wait s.pool hd h0, h0]
      · simp [start_thread_pop s.pool hd h0, h0]
  · cases hd : s.pool.done with
    | true => simp [start_thread_done s.pool hd]
    | false =>
      by_cases h0 : s.pool.task_queue.curr_size = 0
      · simp [start_thread_wait s.pool hd h0]
      · simp [start_thread_pop s.pool hd h0]
  · intro hd
    refine ⟨{ s with workers := s.workers.set w Worker.exited
                     log := s.log ++ [Event.lock, Event.unlock] }, ?_, ?_, rfl⟩
    · simp only [step, hw, start_thread_done s.pool hd]
    · exact set_get_self s.workers w _ _ hw
  · intro hd h0
    obtain ⟨q1, hpop, hitems, _, _, _⟩ := taskqueue_pop_ok s.pool.task_queue hle h0
    have hstep1 : ∃ s1 : Sys, step call s (Action.dequeue w) = some s1 := by
      simp only [step, hw, start_thread_pop s.pool hd h0]
      exact ⟨_, rfl⟩
    obtain ⟨s1, hs1⟩ := hstep1
    obtain ⟨_, hcase⟩ := step_dequeue_eq call s s1 w hs1
    rcases hcase with ⟨hd1, _⟩ | ⟨_, _, task, q, evs, hpop1, _, hcalls, hs1eq⟩
    · rw [hd] at hd1
      cases hd1
    · rw [hpop] at hpop1
      simp only [Call.ret.injEq, Prod.mk.injEq] at hpop1
      obtain ⟨htask, hq⟩ := hpop1
      have hw1 : s1.workers.get? w = some (Worker.running task) := by
        rw [hs1eq]
        exact set_get_self s.workers w _ _ hw
      have hlog1 : work_calls s1.log = work_calls s.log := by
        rw [hs1eq]
        simp only [work_calls_append, hcalls, List.append_nil]
      have hstep2 : ∃ s2 : Sys, step call s1 (Action.complete w) = some s2 ∧
          s2.workers.get? w = some Worker.idle ∧
          ∀ t : Task, task = some t → work_calls s2.log = work_calls s1.log ++ [task_call t] := by
        cases task with
        | none =>
          refine ⟨{ s1 with workers := s1.workers.set w Worker.idle
                            log := s1.log ++ [Event.err] }, ?_, ?_, ?_⟩
          · simp only [step, hw1, yatpool_execute]
          · exact set_get_self s1.workers w _ _ hw1
          · intro t ht
            cases ht
        | some t =>
          obtain ⟨p1, hp1, _, _, _, _, _, _, _, hwc⟩ := yatpool_execute_some call s1.pool t
          refine ⟨{ s1 with pool := p1
                            workers := s1.workers.set w Worker.idle
                            log := s1.log
                              ++ (yatpool_execute call (some s1.pool) (some t)).events },
            ?_, ?_, ?_⟩
          · simp only [step, hw1]
            split
            · rename_i p2 v evs2 heq
              rw [heq] at hp1
              simp only [Option.some.injEq] at hp1
              rw [heq, hp1]
            · rename_i hno
              exfalso
              exact hno p1 _ _ (by rw [← hp1])
          · exact set_get_self s1.workers w _ _ hw1
          · intro t1 ht1
            simp only [Option.some.injEq] at ht1
            subst ht1
            simp only [work_calls_append, hwc, task_call]
      obtain ⟨s2, hs2, hw2, hcalls2⟩ := hstep2
      refine ⟨s1, s2, hs1, ?_, ?_, hs2, hw2, ?_⟩
      · rw [htask]
        exact hw1
      · rw [hs1eq, ← hq]
        exact hitems
      · intro t ht
        rw [htask] at ht
        rw [hcalls2 t ht, hlog1]

theorem start_thread_iff (p : YATPool) :
    (yatpool_start_thread p = Call.blocked
      ↔ (p.task_queue.curr_size = 0 ∧ p.done = false)) ∧
    (yatpool_start_thread p = Call.ret (none, [Event.lock, Event.unlock])
      ↔ p.done = true) := by
  cases hd : p.done with
  | true => simp [start_thread_done p hd]
  | false =>
    by_cases h0 : p.task_queue.curr_size = 0
    · simp [start_thread_wait p hd h0, h0]
    · simp [start_thread_pop p hd h0, h0]

/-- C16 (amended): a worker that has finished waiting exits its loop exactly
when the pool is terminated (`done` is set), and it keeps waiting exactly
when the queue is empty and `done` is not set; whenever `done` is not set and
the queue is non-empty it pops the head task and executes it.  In every state
reachable from `yatpool_init` by submissions, dequeue steps and completion
steps in which at most `total_tasks` tasks have been accepted by
`yatpool_put`, a terminated pool has an empty queue, so there the worker
exits only if the pool is terminated and the queue is empty, and whenever the
queue is non-empty the pool is not terminated and the worker pops the head
task and executes it. -/
theorem worker_exit_rule (call : Ptr → Ptr → Ptr) :
    (∀ p : YATPool,
      (yatpool_start_thread p = Call.blocked
        ↔ (p.task_queue.curr_size = 0 ∧ p.done = false)) ∧
      (yatpool_start_thread p = Call.ret (none, [Event.lock, Event.unlock])
        ↔ p.done = true)) ∧
    (∀ (s : Sys) (w : Nat), s.workers.get? w = some Worker.idle →
      s.pool.task_queue.curr_size ≤ s.pool.task_queue.data.length →
      (s.pool.done = true →
        ∃ s1 : Sys, step call s (Action.dequeue w) = some s1 ∧
          s1.workers.get? w = some Worker.exited ∧ s1.pool = s.pool) ∧
      (s.pool.done = false → s.pool.task_queue.curr_size ≠ 0 →
        ∃ s1 s2 : Sys, step call s (Action.dequeue w) = some s1 ∧
          s1.workers.get? w
            = some (Worker.running (s.pool.task_queue.items.headD none)) ∧
          s1.pool.task_queue.items = s.pool.task_queue.items.tail ∧
          step call s1 (Action.complete w) = some s2 ∧
          s2.workers.get? w = some Worker.idle ∧
          ∀ t : Task, s.pool.task_queue.items.headD none = some t →
            work_calls s2.log = work_calls s.log ++ [task_call t])) ∧
    (∀ (n T : Nat) (s0 : Sys) (acts : List Action) (s : Sys),
      Sys.init n T = some s0 → (∀ a ∈ acts, a.is_reset = false) →
      run call s0 acts = some s →
      (s.accepted.length : Int) ≤ s.pool.total_tasks →
      s.pool.task_queue.curr_size ≤ s.pool.task_queue.data.length ∧
      (s.pool.done = true →
        s.pool.task_queue.curr_size = 0 ∧ s.pool.task_queue.items = []) ∧
      (yatpool_start_thread s.pool = Call.ret (none, [Event.lock, Event.unlock])
        ↔ (s.pool.done = true ∧ s.pool.task_queue.curr_size = 0)) ∧
      (s.pool.task_queue.curr_size ≠ 0 → s.pool.done = false)) := by
  refine ⟨start_thread_iff, fun s w hw hle => ?_, fun n T s0 acts s h0 hr hs hacc => ?_⟩
  · exact (worker_pass_cases call s w hw hle).2.2
  · have hle : s.pool.task_queue.curr_size ≤ s.pool.task_queue.data.length := by
      have hwf := (qinv_run call acts s0 s hr hs (qinv_init n T s0 h0)).1
      have h1 := hwf.1
      have h2 := hwf.2.1
      omega
    have hempty : s.pool.done = true → s.pool.task_queue.curr_size = 0 :=
      fun hd => done_queue_empty call n T s0 acts s h0 hr hs hacc hd
    refine ⟨hle, fun hd => ⟨hempty hd, by simp [TaskQueue.items, hempty hd]⟩, ?_,
      fun hne => ?_⟩
    · rw [(start_thread_iff s.pool).2]
      exact ⟨fun hd => ⟨hd, hempty hd⟩, fun h => h.1⟩
    · cases hd : s.pool.done with
      | false => rfl
      | true => exact absurd (hempty hd) hne

theorem worker_exit_rule_witness :
    (Sys.init 1 2 = some init_example ∧
      (∀ a ∈ [Action.put task_b], a.is_reset = false) ∧
      run call_example init_example [Action.put task_b] = some pending_example ∧
      pending_example.workers.get? 0 = some Worker.idle ∧
      pending_example.pool.task_queue.curr_size ≤ pending_example.pool.task_queue.data.length ∧
      pending_example.pool.done = false ∧
      pending_example.pool.task_queue.curr_size ≠ 0 ∧
      (pending_example.accepted.length : Int) ≤ pending_example.pool.total_tasks) ∧
    (∃ s1 s2 : Sys, step call_example pending_example (Action.dequeue 0) = some s1 ∧
      s1.workers.get? 0
        = some (Worker.running (pending_example.pool.task_queue.items.headD none)) ∧
      s1.pool.task_queue.items = pending_example.pool.task_queue.items.tail ∧
      step call_example s1 (Action.complete 0) = some s2 ∧
      s2.workers.get? 0 = some Worker.idle ∧
      ∀ t : Task, pending_example.pool.task_queue.items.headD none = some t →
        work_calls s2.log = work_calls pending_example.log ++ [task_call t]) ∧
    (yatpool_start_thread pending_example.pool = Call.ret (none, [Event.lock, Event.unlock])
      ↔ (pending_example.pool.done = true ∧
          pending_example.pool.task_queue.curr_size = 0)) ∧
    (done_example.pool.done = true →
      done_example.pool.task_queue.curr_size = 0 ∧ done_example.pool.task_queue.items = []) :=
  ⟨⟨by decide, by decide, by decide, by decide, by decide, by decide, by decide, by decide⟩,
   ((worker_exit_rule call_example).2.1 pending_example 0 (by decide) (by decide)).2
     (by decide) (by decide),
   ((worker_exit_rule call_example).2.2 1 2 init_example [Action.put task_b] pending_example
     (by decide) (by decide) (by decide) (by decide)).2.2.1,
   ((worker_exit_rule call_example).2.2 1 2 init_example acts_example done_example
     (by decide) (by decide) (by decide) (by decide)).2.1⟩

theorem winv_init (n T : Nat) (s0 : Sys) (h : Sys.init n T = some s0) : winv s0 := by
  obtain ⟨_, _, rfl⟩ := init_eq n T s0 h
  exact ⟨⟨by simp, by simp, by simp [MAX_QUEUE_SIZE, SIZEOF_PTR, SIZE_MOD]⟩, rfl⟩

theorem winv_step (call : Ptr → Ptr → Ptr) (s s1 : Sys) (a : Action)
    (hs : step call s a = some s1) (hv : winv s) : winv s1 := by
  obtain ⟨hwf, hlen⟩ := hv
  cases a with
  | put t =>
    obtain ⟨hne, rfl⟩ := step_put_eq call s s1 t hs
    have hlt : s.pool.task_queue.curr_size < s.pool.task_queue.length := by
      have := hwf.2.1
      omega
    obtain ⟨q1, hput, _, hlen1, _, hwf1⟩ := taskqueue_put_ok s.pool.task_queue t hwf hlt
    simp only [winv, hput, Option.getD_some]
    exact ⟨hwf1, by rw [hlen1]; exact hlen⟩
  | dequeue w =>
    obtain ⟨_, hcase⟩ := step_dequeue_eq call s s1 w hs
    rcases hcase with ⟨_, rfl⟩ | ⟨_, h0, task, q, evs, hpop, _, _, rfl⟩
    · exact ⟨hwf, hlen⟩
    · have hle : s.pool.task_queue.curr_size ≤ s.pool.task_queue.data.length := by
        have h1 := hwf.1
        have h2 := hwf.2.1
        omega
      obtain ⟨q1, hpop1, _, hlen1, hsize, hdata⟩ := taskqueue_pop_ok s.pool.task_queue hle h0
      rw [hpop] at hpop1
      simp only [Call.ret.injEq, Prod.mk.injEq] at hpop1
      obtain ⟨_, hq1⟩ := hpop1
      subst hq1
      exact ⟨⟨by rw [hdata, hlen1]; exact hwf.1,
        by rw [hsize, hlen1]; have := hwf.2.1; omega,
        by rw [hlen1]; exact hwf.2.2⟩, by show q.length = MAX_QUEUE_SIZE; rw [hlen1]; exact hlen⟩
  | complete w =>
    rcases step_complete_eq call s s1 w hs with ⟨_, rfl⟩ | ⟨t, p1, _, hp1, rfl⟩
    · exact ⟨hwf, hlen⟩
    · obtain ⟨p2, hp2, _, _, _, hq2, _⟩ := yatpool_execute_some call s.pool t
      rw [hp1] at hp2
      simp only [Option.some.injEq] at hp2
      subst hp2
      show p1.task_queue.wf ∧ p1.task_queue.length = MAX_QUEUE_SIZE
      rw [hq2]
      exact ⟨hwf, hlen⟩
  | reset m =>
    obtain ⟨_, _, rfl⟩ := step_reset_eq call s s1 m hs
    exact ⟨⟨hwf.1, Nat.zero_le _, hwf.2.2⟩, hlen⟩

theorem winv_run (call : Ptr → Ptr → Ptr) (acts : List Action) (s s1 : Sys)
    (hs : run call s acts = some s1) (hv : winv s) : winv s1 := by
  induction acts generalizing s with
  | nil =>
    simp [run] at hs
    exact hs ▸ hv
  | cons a rest ih =>
    simp only [run] at hs
    cases hstep : step call s a with
    | none => simp [hstep] at hs
    | some s2 =>
      simp only [hstep] at hs
      exact ih s2 hs (winv_step call s s2 a hstep hv)

/-- C17: `yatpool_put` never loses a task and never overfills the queue.  For
every pool with a well-formed queue and every non-null task, `yatpool_put`
waits exactly when the queue is full and never ends the process; otherwise
the `taskqueue_put` call inside it (whose result is ignored) returns true and
appends the task at the tail, and `completed`, `done`, `total_tasks`, the
results and `pool_size` are unchanged.  In every pool state reachable from
`yatpool_init` by submissions, dequeue steps, completion steps and resets the
queue is well formed, has capacity 100 and holds at most 100 pending tasks. -/
theorem put_never_overfills (call : Ptr → Ptr → Ptr) (p : YATPool) (t : Task)
    (hwf : p.task_queue.wf)
    (n T : Nat) (s0 : Sys) (acts : List Action) (s : Sys)
    (h0 : Sys.init n T = some s0)
    (hs : run call s0 acts = some s) :
    (yatpool_put (some p) (some t) = Call.blocked
      ↔ p.task_queue.curr_size = p.task_queue.length) ∧
    yatpool_put (some p) (some t) ≠ Call.exit1 ∧
    (p.task_queue.curr_size ≠ p.task_queue.length →
      taskqueue_full (some p.task_queue) = Call.ret false ∧
      (taskqueue_put (some p.task_queue) (some t)).1 = true ∧
      ∃ p1 : YATPool,
        yatpool_put (some p) (some t)
          = Call.ret { pool := some p1, value := (),
                       events := [Event.lock, Event.unlock,
                                  Event.cond_signal Cond.cond_queue] } ∧
        p1.task_queue.items = p.task_queue.items ++ [some t] ∧
        p1.task_queue.length = p.task_queue.length ∧
        p1.completed = p.completed ∧ p1.done = p.done ∧
        p1.total_tasks = p.total_tasks ∧ p1.retvalarr = p.retvalarr ∧
        p1.pool_size = p.pool_size) ∧
    (s.pool.task_queue.wf ∧ s.pool.task_queue.length = 100 ∧
      s.pool.task_queue.curr_size ≤ 100 ∧ s.pool.task_queue.items.length ≤ 100) := by
  refine ⟨?_, ?_, ?_, ?_⟩
  · by_cases hfull : p.task_queue.curr_size = p.task_queue.length
    · simp [yatpool_put, taskqueue_full, hfull]
    · simp [yatpool_put, taskqueue_full, hfull]
  · by_cases hfull : p.task_queue.curr_size = p.task_queue.length
    · simp [yatpool_put, taskqueue_full, hfull]
    · simp [yatpool_put, taskqueue_full, hfull]
  · intro hfull
    have hlt : p.task_queue.curr_size < p.task_queue.length := by
      have := hwf.2.1
      omega
    obtain ⟨q1, hput, hitems, hlen1, _, _⟩ := taskqueue_put_ok p.task_queue t hwf hlt
    refine ⟨by simp [taskqueue_full, hfull], by rw [hput], { p with task_queue := q1 },
      ?_, hitems, hlen1, rfl, rfl, rfl, rfl, rfl⟩
    simp [yatpool_put, taskqueue_full, hfull, hput]
  · obtain ⟨hwfs, hlen⟩ := winv_run call acts s0 s hs (winv_init n T s0 h0)
    have hle := hwfs.2.1
    have hdata := hwfs.1
    simp only [MAX_QUEUE_SIZE] at hlen
    refine ⟨hwfs, hlen, by omega, ?_⟩
    rw [items_length _ (by omega)]
    omega

theorem put_never_overfills_witness :
    (pending_example.pool.task_queue.wf ∧ Sys.init 1 2 = some init_example ∧
      run call_example init_example acts_example = some done_example ∧
      pending_example.pool.task_queue.curr_size ≠ pending_example.pool.task_queue.length) ∧
    (taskqueue_full (some pending_example.pool.task_queue) = Call.ret false ∧
      (taskqueue_put (some pending_example.pool.task_queue) (some task_a)).1 = true ∧
      ∃ p1 : YATPool,
        yatpool_put (some pending_example.pool) (some task_a)
          = Call.ret { pool := some p1, value := (),
                       events := [Event.lock, Event.unlock,
                                  Event.cond_signal Cond.cond_queue] } ∧
        p1.task_queue.items = pending_example.pool.task_queue.items ++ [some task_a] ∧
        p1.task_queue.length = pending_example.pool.task_queue.length ∧
        p1.completed = pending_example.pool.completed ∧ p1.done = pending_example.pool.done ∧
        p1.total_tasks = pending_example.pool.total_tasks ∧
        p1.retvalarr = pending_example.pool.retvalarr ∧
        p1.pool_size = pending_example.pool.pool_size) ∧
    (done_example.pool.task_queue.wf ∧ done_example.pool.task_queue.length = 100 ∧
      done_example.pool.task_queue.curr_size ≤ 100 ∧
      done_example.pool.task_queue.items.length ≤ 100) :=
  ⟨⟨⟨by decide, by decide, by decide⟩, by decide, by decide, by decide⟩,
   (put_never_overfills call_example pending_example.pool task_a
     ⟨by decide, by decide, by decide⟩ 1 2 init_example acts_example done_example
     (by decide) (by decide)).2.2.1 (by decide),
   (put_never_overfills call_example pending_example.pool task_a
     ⟨by decide, by decide, by decide⟩ 1 2 init_example acts_example done_example
     (by decide) (by decide)).2.2.2⟩

/-! ## Mutex discipline of `yatpool_reset` -/

/-- C18 (code evaluated at the failing input): on a pool whose batch is done
while `task_b` is pending, `yatpool_reset(pool, 1)` returns after performing
only the `free` of the pending task: it neither locks nor unlocks the mutex,
yet it has read `done` and changed the queue length, `done` and `completed`.
A submission on the same pool, by contrast, locks and unlocks. -/
theorem reset_takes_no_lock :
    done_pending_state.map (fun s => reset_events s 1)
      = some (some [Event.free_task (some task_b)]) ∧
    done_pending_state.map (fun s =>
        (s.pool.task_queue.curr_size, s.pool.done, s.pool.completed)) = some (1, true, 1) ∧
    after_reset_state.map (fun s =>
        (s.pool.task_queue.curr_size, s.pool.done, s.pool.completed)) = some (0, false, 0) ∧
    (after_reset_state.bind (fun s => step call_example s (Action.put task_a))).map
        (fun s => s.log.reverse.take 3)
      = some [Event.cond_signal Cond.cond_queue, Event.unlock, Event.lock] := by
  refine ⟨?_, ?_, ?_, ?_⟩ <;> decide

end Yatpool
